import Mathlib

/-!
Verification of the pyclog container format (`pyclog/writer.py`, `pyclog/reader.py`,
`pyclog/constants.py`) against its natural-language specification.

The embedding is byte-level: Python `bytes` values are `List Nat` with entries < 256,
Python `str` values are `List Nat` of Unicode code points.  Pure functions of the
source become Lean functions; the writer's mutable buffer state becomes an explicit
`WriterState` record threaded through `write_record`/`_flush_chunk`/`close`.
Ambient effects (the wall clock feeding `datetime.now().isoformat()` and the
time-trigger comparison, and the compression libraries behind the gzip/zstd codecs)
enter as explicit parameters.
-/

namespace Pyclog

/-! ## Python string/bytes primitives -/

/-- UTF-8 encoding of one code point (Python `str.encode('utf-8')`, per char). -/
def utf8EncodeChar (c : Nat) : List Nat :=
  if c < 0x80 then [c]
  else if c < 0x800 then [0xC0 + c / 64, 0x80 + c % 64]
  else if c < 0x10000 then [0xE0 + c / 4096, 0x80 + c / 64 % 64, 0x80 + c % 64]
  else [0xF0 + c / 262144, 0x80 + c / 4096 % 64, 0x80 + c / 64 % 64, 0x80 + c % 64]

/-- UTF-8 encoding of a string of code points. -/
def utf8Encode (s : List Nat) : List Nat := s.flatMap utf8EncodeChar

/-- A UTF-8 continuation byte. -/
def ContB (b : Nat) : Prop := 0x80 ≤ b ∧ b < 0xC0

instance (b : Nat) : Decidable (ContB b) := by unfold ContB; infer_instance

/-- Strict UTF-8 decoding (Python `bytes.decode('utf-8')`): rejects stray or missing
continuation bytes, overlong encodings, surrogates and values above U+10FFFF,
returning `none` exactly where Python raises `UnicodeDecodeError`. -/
def utf8Decode : List Nat → Option (List Nat)
  | [] => some []
  | b :: rest =>
    if b < 0x80 then (utf8Decode rest).map (b :: ·)
    else if b < 0xC2 then none
    else if b < 0xE0 then
      let b1 := rest.getD 0 0
      if 1 ≤ rest.length ∧ ContB b1 then
        (utf8Decode (rest.drop 1)).map (((b - 0xC0) * 64 + (b1 - 0x80)) :: ·)
      else none
    else if b < 0xF0 then
      let b1 := rest.getD 0 0
      let b2 := rest.getD 1 0
      if 2 ≤ rest.length ∧ ContB b1 ∧ ContB b2 ∧
          (b = 0xE0 → 0xA0 ≤ b1) ∧ (b = 0xED → b1 < 0xA0) then
        (utf8Decode (rest.drop 2)).map
          (((b - 0xE0) * 4096 + (b1 - 0x80) * 64 + (b2 - 0x80)) :: ·)
      else none
    else if b < 0xF5 then
      let b1 := rest.getD 0 0
      let b2 := rest.getD 1 0
      let b3 := rest.getD 2 0
      if 3 ≤ rest.length ∧ ContB b1 ∧ ContB b2 ∧ ContB b3 ∧
          (b = 0xF0 → 0x90 ≤ b1) ∧ (b = 0xF4 → b1 < 0x90) then
        (utf8Decode (rest.drop 3)).map
          (((b - 0xF0) * 262144 + (b1 - 0x80) * 4096 + (b2 - 0x80) * 64 + (b3 - 0x80)) :: ·)
      else none
    else none
termination_by l => l.length
decreasing_by all_goals simp only [List.length_drop, List.length_cons]; all_goals omega

/-- A Unicode scalar value: encodable by Python's strict UTF-8 codec. -/
def Scalar (c : Nat) : Prop := c < 0xD800 ∨ (0xE000 ≤ c ∧ c < 0x110000)

instance (c : Nat) : Decidable (Scalar c) := by unfold Scalar; infer_instance

/-- Python `bytes.split(sep)` for a one-byte separator: splits on every occurrence,
yielding one more part than there are separators. -/
def pySplitAll (d : Nat) : List Nat → List (List Nat)
  | [] => [[]]
  | c :: rest =>
    if c = d then [] :: pySplitAll d rest
    else
      match pySplitAll d rest with
      | [] => [[c]]
      | h :: t => (c :: h) :: t

/-- Split at the first occurrence of `d`, if any. -/
def splitOnce (d : Nat) : List Nat → Option (List Nat × List Nat)
  | [] => none
  | c :: rest =>
    if c = d then some ([], rest)
    else
      match splitOnce d rest with
      | none => none
      | some (a, b) => some (c :: a, b)

/-- Python `str.split(sep, 2)`: at most two splits, hence at most three parts;
the last part keeps any further separators. -/
def pySplit2 (d : Nat) (l : List Nat) : List (List Nat) :=
  match splitOnce d l with
  | none => [l]
  | some (a, r) =>
    match splitOnce d r with
    | none => [a, r]
    | some (b, r2) => [a, b, r2]

/-- Little-endian 32-bit serialization, as `struct.pack('<I', n)` produces. -/
def u32le (n : Nat) : List Nat :=
  [n % 256, n / 256 % 256, n / 65536 % 256, n / 16777216 % 256]

/-- Little-endian 32-bit parse, as `struct.unpack('<I', …)` computes. -/
def readU32 (b0 b1 b2 b3 : Nat) : Nat := b0 + 256 * b1 + 65536 * b2 + 16777216 * b3

/-- `bytes.rstrip(b'\x00')`: drop trailing zero bytes. -/
def rstrip0 (l : List Nat) : List Nat := (l.reverse.dropWhile (· == 0)).reverse

/-! ### Primitive lemmas -/

theorem readU32_u32le (n : Nat) (h : n < 4294967296) :
    readU32 (n % 256) (n / 256 % 256) (n / 65536 % 256) (n / 16777216 % 256) = n := by
  unfold readU32; omega

theorem utf8EncodeChar_ne_nil (c : Nat) : utf8EncodeChar c ≠ [] := by
  unfold utf8EncodeChar
  split
  · simp
  · split
    · simp
    · split <;> simp

theorem utf8Encode_append (s t : List Nat) :
    utf8Encode (s ++ t) = utf8Encode s ++ utf8Encode t := by
  simp [utf8Encode]

theorem utf8Encode_single_of_lt (c : Nat) (h : c < 0x80) : utf8Encode [c] = [c] := by
  simp [utf8Encode, utf8EncodeChar, h]

/-- Every byte of a multi-byte UTF-8 sequence is ≥ 0x80, so an ASCII byte occurs in
the encoding exactly where the corresponding code point occurs in the string. -/
theorem mem_utf8EncodeChar_ascii {d c b : Nat} (hd : d < 0x80)
    (hb : b ∈ utf8EncodeChar c) (hbd : b = d) : c = d := by
  unfold utf8EncodeChar at hb
  split at hb
  · simp at hb; omega
  · split at hb
    · simp at hb; omega
    · split at hb
      · simp at hb; omega
      · simp at hb; omega

theorem mem_utf8Encode_ascii {d : Nat} (hd : d < 0x80) (s : List Nat)
    (hs : d ∉ s) : d ∉ utf8Encode s := by
  intro hmem
  simp only [utf8Encode, List.mem_flatMap] at hmem
  obtain ⟨c, hc, hb⟩ := hmem
  exact hs ((mem_utf8EncodeChar_ascii hd hb rfl) ▸ hc)

theorem utf8Decode_cons_ascii (b : Nat) (rest : List Nat) (h : b < 0x80) :
    utf8Decode (b :: rest) = (utf8Decode rest).map (b :: ·) := by
  rw [utf8Decode]
  rw [if_pos h]

theorem utf8Decode_cons2 (b b1 : Nat) (rest : List Nat) (h1 : 0xC2 ≤ b) (h2 : b < 0xE0)
    (h3 : 0x80 ≤ b1) (h4 : b1 < 0xC0) :
    utf8Decode (b :: b1 :: rest) =
      (utf8Decode rest).map (((b - 0xC0) * 64 + (b1 - 0x80)) :: ·) := by
  rw [utf8Decode]
  simp only [List.getD_cons_zero, List.getD_cons_succ, List.length_cons,
    List.drop_succ_cons, List.drop_zero]
  rw [if_neg (by omega), if_neg (by omega), if_pos (by omega),
    if_pos ⟨by omega, by simp [ContB]; omega⟩]

theorem utf8Decode_cons3 (b b1 b2 : Nat) (rest : List Nat) (h1 : 0xE0 ≤ b) (h2 : b < 0xF0)
    (h3 : 0x80 ≤ b1) (h4 : b1 < 0xC0) (h5 : 0x80 ≤ b2) (h6 : b2 < 0xC0)
    (h7 : b = 0xE0 → 0xA0 ≤ b1) (h8 : b = 0xED → b1 < 0xA0) :
    utf8Decode (b :: b1 :: b2 :: rest) =
      (utf8Decode rest).map (((b - 0xE0) * 4096 + (b1 - 0x80) * 64 + (b2 - 0x80)) :: ·) := by
  rw [utf8Decode]
  simp only [List.getD_cons_zero, List.getD_cons_succ, List.length_cons,
    List.drop_succ_cons, List.drop_zero]
  rw [if_neg (by omega), if_neg (by omega), if_neg (by omega), if_pos (by omega),
    if_pos ⟨by omega, by simp [ContB]; omega, by simp [ContB]; omega, h7, h8⟩]

theorem utf8Decode_cons4 (b b1 b2 b3 : Nat) (rest : List Nat) (h1 : 0xF0 ≤ b) (h2 : b < 0xF5)
    (h3 : 0x80 ≤ b1) (h4 : b1 < 0xC0) (h5 : 0x80 ≤ b2) (h6 : b2 < 0xC0)
    (h7 : 0x80 ≤ b3) (h8 : b3 < 0xC0)
    (h9 : b = 0xF0 → 0x90 ≤ b1) (h10 : b = 0xF4 → b1 < 0x90) :
    utf8Decode (b :: b1 :: b2 :: b3 :: rest) =
      (utf8Decode rest).map
        (((b - 0xF0) * 262144 + (b1 - 0x80) * 4096 + (b2 - 0x80) * 64 + (b3 - 0x80)) :: ·) := by
  rw [utf8Decode]
  simp only [List.getD_cons_zero, List.getD_cons_succ, List.length_cons,
    List.drop_succ_cons, List.drop_zero]
  rw [if_neg (by omega), if_neg (by omega), if_neg (by omega), if_neg (by omega),
    if_pos (by omega),
    if_pos ⟨by omega, by simp [ContB]; omega, by simp [ContB]; omega, by simp [ContB]; omega,
      h9, h10⟩]

/-- Decoding inverts encoding, one code point at a time. -/
theorem utf8Decode_encodeChar_append (c : Nat) (hc : Scalar c) (rest : List Nat) :
    utf8Decode (utf8EncodeChar c ++ rest) = (utf8Decode rest).map (c :: ·) := by
  rcases hc with hc | hc
  all_goals rcases Nat.lt_or_ge c 0x80 with h1 | h1
  all_goals rcases Nat.lt_or_ge c 0x800 with h2 | h2
  all_goals rcases Nat.lt_or_ge c 0x10000 with h3 | h3
  all_goals try omega
  all_goals unfold utf8EncodeChar
  · rw [if_pos h1]
    simp only [List.cons_append, List.nil_append]
    rw [utf8Decode_cons_ascii _ _ h1]
  · rw [if_neg (by omega), if_pos h2]
    simp only [List.cons_append, List.nil_append]
    rw [utf8Decode_cons2 _ _ _ (by omega) (by omega) (by omega) (by omega)]
    have hv : (0xC0 + c / 64 - 0xC0) * 64 + (0x80 + c % 64 - 0x80) = c := by omega
    rw [hv]
  · rw [if_neg (by omega), if_neg (by omega), if_pos h3]
    simp only [List.cons_append, List.nil_append]
    rw [utf8Decode_cons3 _ _ _ _ (by omega) (by omega) (by omega) (by omega) (by omega)
      (by omega) (by omega) (by omega)]
    have hv : (0xE0 + c / 4096 - 0xE0) * 4096 + (0x80 + c / 64 % 64 - 0x80) * 64 +
        (0x80 + c % 64 - 0x80) = c := by omega
    rw [hv]
  · rw [if_neg (by omega), if_neg (by omega), if_pos h3]
    simp only [List.cons_append, List.nil_append]
    rw [utf8Decode_cons3 _ _ _ _ (by omega) (by omega) (by omega) (by omega) (by omega)
      (by omega) (by omega) (by omega)]
    have hv : (0xE0 + c / 4096 - 0xE0) * 4096 + (0x80 + c / 64 % 64 - 0x80) * 64 +
        (0x80 + c % 64 - 0x80) = c := by omega
    rw [hv]
  · rw [if_neg (by omega), if_neg (by omega), if_neg (by omega)]
    simp only [List.cons_append, List.nil_append]
    rw [utf8Decode_cons4 _ _ _ _ _ (by omega) (by omega) (by omega) (by omega) (by omega)
      (by omega) (by omega) (by omega) (by omega) (by omega)]
    have hv : (0xF0 + c / 262144 - 0xF0) * 262144 + (0x80 + c / 4096 % 64 - 0x80) * 4096 +
        (0x80 + c / 64 % 64 - 0x80) * 64 + (0x80 + c % 64 - 0x80) = c := by omega
    rw [hv]

/-- Strict decoding inverts UTF-8 encoding on strings of Unicode scalar values. -/
theorem utf8Decode_utf8Encode (s : List Nat) (hs : ∀ c ∈ s, Scalar c) :
    utf8Decode (utf8Encode s) = some s := by
  induction s with
  | nil =>
    rw [show utf8Encode [] = [] from rfl, utf8Decode]
  | cons c t ih =>
    have : utf8Encode (c :: t) = utf8EncodeChar c ++ utf8Encode t := by
      simp [utf8Encode]
    rw [this, utf8Decode_encodeChar_append c (hs c (by simp)),
      ih (fun x hx => hs x (by simp [hx]))]
    rfl

/-! ### Split lemmas -/

theorem pySplitAll_ne_nil (d : Nat) (l : List Nat) : pySplitAll d l ≠ [] := by
  induction l with
  | nil => simp [pySplitAll]
  | cons c rest ih =>
    rw [pySplitAll]
    split
    · simp
    · match h : pySplitAll d rest with
      | [] => exact absurd h ih
      | x :: t => simp

theorem pySplitAll_append_sep (d : Nat) (a r : List Nat) (ha : d ∉ a) :
    pySplitAll d (a ++ d :: r) = a :: pySplitAll d r := by
  induction a with
  | nil => simp [pySplitAll]
  | cons c t ih =>
    have hc : ¬ (c = d) := fun h => ha (by simp [h])
    have ht : d ∉ t := fun h => ha (by simp [h])
    rw [List.cons_append, pySplitAll, if_neg hc, ih ht]

theorem pySplitAll_flatten (d : Nat) (frags : List (List Nat))
    (h : ∀ f ∈ frags, d ∉ f) :
    pySplitAll d (frags.map (· ++ [d])).flatten = frags ++ [[]] := by
  induction frags with
  | nil => simp [pySplitAll]
  | cons f fs ih =>
    have hsingle : (f ++ [d]) ++ (fs.map (· ++ [d])).flatten =
        f ++ d :: (fs.map (· ++ [d])).flatten := by
      simp
    rw [List.map_cons, List.flatten_cons, hsingle,
      pySplitAll_append_sep d f _ (h f (by simp)),
      ih (fun g hg => h g (by simp [hg]))]
    rfl

theorem splitOnce_not_mem (d : Nat) (l : List Nat) (h : d ∉ l) : splitOnce d l = none := by
  induction l with
  | nil => rfl
  | cons c t ih =>
    have hc : ¬ (c = d) := fun hcd => h (by simp [hcd])
    rw [splitOnce, if_neg hc, ih (fun hm => h (by simp [hm]))]

theorem splitOnce_append (d : Nat) (a r : List Nat) (ha : d ∉ a) :
    splitOnce d (a ++ d :: r) = some (a, r) := by
  induction a with
  | nil => simp [splitOnce]
  | cons c t ih =>
    have hc : ¬ (c = d) := fun h => ha (by simp [h])
    have ht : d ∉ t := fun h => ha (by simp [h])
    rw [List.cons_append, splitOnce, if_neg hc, ih ht]

theorem pySplit2_parts (d : Nat) (a b c : List Nat) (ha : d ∉ a) (hb : d ∉ b) :
    pySplit2 d (a ++ d :: (b ++ d :: c)) = [a, b, c] := by
  simp only [pySplit2, splitOnce_append d a (b ++ d :: c) ha, splitOnce_append d b c hb]

/-! ## Constants (`pyclog/constants.py`) -/

def MAGIC_BYTES : List Nat := [0x43, 0x4C, 0x4F, 0x47]

def FORMAT_VERSION : Nat := 1

def COMPRESSION_NONE : Nat := 0

def COMPRESSION_GZIP : Nat := 1

def COMPRESSION_ZSTANDARD : Nat := 2

def RECORD_DELIMITER : Nat := 10

def FIELD_DELIMITER : Nat := 9

def HEADER_SIZE : Nat := 16

def CHUNK_HEADER_SIZE : Nat := 12

/-- Modelled from the spec: the exception taxonomy of `pyclog/exceptions.py`.  That
module is imported by every component but missing from the sources; spec section 7
gives the taxonomy and the class names come from the imports in `writer.py` and
`reader.py`.  `invalidClogFile` is the spec's malformed-file error,
`unsupportedCompression` its unsupported-compression error, `clogRead` its read
error and `clogWrite` its write error; section 7 files the append-time codec
mismatch (raised in `writer.py` as `ClogWriteError`) under its "configuration
error" heading. -/
inductive ClogError where
  | invalidClogFile
  | unsupportedCompression
  | clogRead
  | clogWrite
deriving DecidableEq, Repr

/-! ## Writer (`pyclog/writer.py`) -/

/-- `message.replace('\n', '\v')` in `write_record`: the newline sentinel. -/
def processed_message (message : List Nat) : List Nat :=
  message.map fun c => if c = 10 then 11 else c

/-- The serialized text of one record without its trailing record delimiter:
`f"{timestamp}\t{level}\t{processed_message}"` as code points. -/
def record_body (timestamp level message : List Nat) : List Nat :=
  timestamp ++ [FIELD_DELIMITER] ++ level ++ [FIELD_DELIMITER] ++ processed_message message

/-- `record_str.encode('utf-8')`: the bytes `write_record` appends to the buffer,
record delimiter included. -/
def record_bytes (timestamp level message : List Nat) : List Nat :=
  utf8Encode (record_body timestamp level message ++ [RECORD_DELIMITER])

/-- `struct.pack('<4sH2s8s', MAGIC_BYTES, FORMAT_VERSION, compression_code, b'\x00'*8)`:
the 16-byte header `_write_header` emits; `'2s'` zero-pads the one-byte code. -/
def header_bytes (compression_code : Nat) : List Nat :=
  MAGIC_BYTES ++ [FORMAT_VERSION % 256, FORMAT_VERSION / 256 % 256] ++
    [compression_code % 256, 0] ++ List.replicate 8 0

/-- The bytes `_flush_chunk` appends for one chunk: `struct.pack('<III', …)` then the
codec output. -/
def chunk_bytes (compress : List Nat → List Nat) (records_data : List Nat)
    (record_count : Nat) : List Nat :=
  let compressed_data := compress records_data
  u32le compressed_data.length ++ u32le records_data.length ++ u32le record_count ++
    compressed_data

/-- The writer's mutable state: the buffer with its running counters, and the bytes
written to the file so far (header included). -/
structure WriterState where
  buffer : List (List Nat)
  buffer_current_size : Nat
  buffer_current_records : Nat
  fileBytes : List Nat
deriving Repr, DecidableEq

/-- A fresh writer in `'w'` mode: truncate and `_write_header`. -/
def writer_create (compression_code : Nat) : WriterState :=
  { buffer := [], buffer_current_size := 0, buffer_current_records := 0,
    fileBytes := header_bytes compression_code }

/-- `_flush_chunk`: no-op on an empty buffer; otherwise join the buffer, compress it as
one chunk, append chunk header and payload, and clear buffer and counters.  `compress`
abstracts the codec `_compress_chunk` selects from `compression_code` (the identity
for `COMPRESSION_NONE`). -/
def flush_chunk (compress : List Nat → List Nat) (st : WriterState) : WriterState :=
  if st.buffer = [] then st
  else
    let records_data := st.buffer.flatten
    { buffer := [], buffer_current_size := 0, buffer_current_records := 0,
      fileBytes := st.fileBytes ++
        chunk_bytes compress records_data st.buffer_current_records }

def DEFAULT_BUFFER_FLUSH_SIZE : Nat := 4 * 1024 * 1024

def DEFAULT_BUFFER_FLUSH_RECORDS : Nat := 20000

/-- `write_record(level, message)`: serialize with the ambient timestamp, append to the
buffer and bump the counters, then flush if any of the three triggers holds.
`time_trigger` is the ambient truth of `time.time() - last_flush_time >= flush_interval`
at this call. -/
def write_record (compress : List Nat → List Nat)
    (buffer_flush_size buffer_flush_records : Nat) (st : WriterState)
    (timestamp level message : List Nat) (time_trigger : Bool) : WriterState :=
  let rb := record_bytes timestamp level message
  let st1 : WriterState :=
    { st with
      buffer := st.buffer ++ [rb],
      buffer_current_size := st.buffer_current_size + rb.length,
      buffer_current_records := st.buffer_current_records + 1 }
  if st1.buffer_current_size ≥ buffer_flush_size ∨
      st1.buffer_current_records ≥ buffer_flush_records ∨
      (st1.buffer ≠ [] ∧ time_trigger = true) then
    flush_chunk compress st1
  else st1

/-- `close()`: the final best-effort `_flush_chunk` before the handle is released. -/
def close_writer (compress : List Nat → List Nat) (st : WriterState) : WriterState :=
  flush_chunk compress st

/-- One `write_record` call with its ambient inputs: the timestamp
`datetime.now().isoformat()` produced, and whether the time trigger fired. -/
structure WriteCall where
  timestamp : List Nat
  level : List Nat
  message : List Nat
  time_trigger : Bool
deriving Repr, DecidableEq

/-- A sequence of `write_record` calls, in order. -/
def write_all (compress : List Nat → List Nat)
    (buffer_flush_size buffer_flush_records : Nat) (st : WriterState)
    (calls : List WriteCall) : WriterState :=
  calls.foldl
    (fun s c => write_record compress buffer_flush_size buffer_flush_records s
      c.timestamp c.level c.message c.time_trigger) st

/-- `_validate_header_for_append`: read the existing file's 16-byte header and check
magic, version, and the zero-stripped compression code against the writer's. -/
def validate_header_for_append (compression_code : Nat) (fileBytes : List Nat) :
    Except ClogError Unit :=
  let header := fileBytes.take 16
  if header.length < 16 then .error .invalidClogFile
  else
    let magic := header.take 4
    let version := header.getD 4 0 + 256 * header.getD 5 0
    let code_field := [header.getD 6 0, header.getD 7 0]
    if magic ≠ MAGIC_BYTES then .error .invalidClogFile
    else if version ≠ FORMAT_VERSION then .error .invalidClogFile
    else if rstrip0 code_field ≠ rstrip0 [compression_code] then .error .clogWrite
    else .ok ()

/-- The `mode == 'a'`, file-exists branch of `_open_file`: open `r+b` (contents kept),
validate the header, seek to end-of-file.  The branch only reads and seeks, so the
file contents pass through unchanged in both outcomes; on success the position is the
file length. -/
def open_file_append (compression_code : Nat) (fileBytes : List Nat) :
    Except ClogError Nat × List Nat :=
  match validate_header_for_append compression_code fileBytes with
  | .error e => (.error e, fileBytes)
  | .ok _ => (.ok fileBytes.length, fileBytes)

/-! ## Reader (`pyclog/reader.py`) -/

/-- `_read_header`: read exactly 16 bytes and validate magic, version and compression
code; the code is taken as the first byte of the padded field.  `zstd_available` is
the ambient presence of the optional `zstandard` library. -/
def read_header (zstd_available : Bool) (fileBytes : List Nat) : Except ClogError Nat :=
  let header := fileBytes.take 16
  if header.length < 16 then .error .invalidClogFile
  else
    let magic_bytes := header.take 4
    let format_version := header.getD 4 0 + 256 * header.getD 5 0
    let compression_code := header.getD 6 0
    if magic_bytes ≠ MAGIC_BYTES then .error .invalidClogFile
    else if format_version ≠ FORMAT_VERSION then .error .invalidClogFile
    else if ¬ (compression_code = COMPRESSION_NONE ∨ compression_code = COMPRESSION_GZIP ∨
        compression_code = COMPRESSION_ZSTANDARD) then
      .error .unsupportedCompression
    else if compression_code = COMPRESSION_ZSTANDARD ∧ zstd_available = false then
      .error .unsupportedCompression
    else .ok compression_code

/-- The observable outcome of one iteration of the `while True` loop in `read_chunks`,
taken at a chunk boundary. -/
inductive ChunkStep where
  | terminate
  | sleepRetry
  | yieldChunk (decompressed_data : List Nat) (record_count : Nat)
  | raiseReadError
deriving Repr, DecidableEq

/-- One iteration of `read_chunks` with `remaining` bytes left past the current
position; `decompress` abstracts `_decompress_chunk` (identity in its first argument
for `COMPRESSION_NONE`). -/
def read_chunks_step (decompress : List Nat → Nat → List Nat) (follow : Bool)
    (remaining : List Nat) : ChunkStep :=
  let chunk_header_bytes := remaining.take 12
  if chunk_header_bytes = [] then
    if follow then .sleepRetry else .terminate
  else if chunk_header_bytes.length < 12 then .raiseReadError
  else
    let compressed_size := readU32 (chunk_header_bytes.getD 0 0) (chunk_header_bytes.getD 1 0)
      (chunk_header_bytes.getD 2 0) (chunk_header_bytes.getD 3 0)
    let uncompressed_size := readU32 (chunk_header_bytes.getD 4 0) (chunk_header_bytes.getD 5 0)
      (chunk_header_bytes.getD 6 0) (chunk_header_bytes.getD 7 0)
    let record_count := readU32 (chunk_header_bytes.getD 8 0) (chunk_header_bytes.getD 9 0)
      (chunk_header_bytes.getD 10 0) (chunk_header_bytes.getD 11 0)
    let compressed_data := (remaining.drop 12).take compressed_size
    if compressed_data.length < compressed_size then .raiseReadError
    else .yieldChunk (decompress compressed_data uncompressed_size) record_count

/-- The whole non-follow run of `read_chunks` over the chunk area: the
`(decompressed_data, record_count)` pairs yielded before the loop ends, paired with
`some ClogReadError` if it ends by raising rather than at end-of-file. -/
def read_chunks_list (decompress : List Nat → Nat → List Nat) :
    List Nat → List (List Nat × Nat) × Option ClogError
  | [] => ([], none)
  | b0 :: b1 :: b2 :: b3 :: b4 :: b5 :: b6 :: b7 :: b8 :: b9 :: b10 :: b11 :: rest =>
    let compressed_size := readU32 b0 b1 b2 b3
    let uncompressed_size := readU32 b4 b5 b6 b7
    let record_count := readU32 b8 b9 b10 b11
    let compressed_data := rest.take compressed_size
    if compressed_data.length < compressed_size then ([], some .clogRead)
    else
      let r := read_chunks_list decompress (rest.drop compressed_size)
      ((decompress compressed_data uncompressed_size, record_count) :: r.1, r.2)
  | _ => ([], some .clogRead)
termination_by l => l.length
decreasing_by simp only [List.length_drop, List.length_cons]; omega

/-- A `(timestamp, level, message)` tuple as yielded by the reader. -/
abbrev LogRecord := List Nat × List Nat × List Nat

/-- The per-fragment loop of `read_records` over the fragments of one decompressed
chunk: skip empty fragments, decode UTF-8 — a failure is a hard `ClogReadError` that
aborts the iteration — split on the field delimiter with maxsplit 2 and keep
exactly-3-part records, silently skipping the rest.  Returns the records yielded
before any error. -/
def parse_fragments_strict : List (List Nat) → List LogRecord × Option ClogError
  | [] => ([], none)
  | f :: fs =>
    if f = [] then parse_fragments_strict fs
    else
      match utf8Decode f with
      | none => ([], some .clogRead)
      | some record_str =>
        match pySplit2 FIELD_DELIMITER record_str with
        | [t, l, m] =>
          let r := parse_fragments_strict fs
          ((t, l, m) :: r.1, r.2)
        | _ => parse_fragments_strict fs

/-- `read_records`, restricted to one chunk payload. -/
def parse_records_strict (decompressed_data : List Nat) :
    List LogRecord × Option ClogError :=
  parse_fragments_strict (pySplitAll RECORD_DELIMITER decompressed_data)

/-- Concatenate per-chunk record parses, stopping at the first in-chunk error, then
surface any chunk-level error of `read_chunks`. -/
def records_of_chunks (chunkErr : Option ClogError) :
    List (List Nat × Nat) → List LogRecord × Option ClogError
  | [] => ([], chunkErr)
  | (decompressed_data, _) :: rest =>
    let r := parse_records_strict decompressed_data
    match r.2 with
    | some e => (r.1, some e)
    | none =>
      let r2 := records_of_chunks chunkErr rest
      (r.1 ++ r2.1, r2.2)

/-- The whole non-follow run of `read_records` over the chunk area (the file bytes
after the 16-byte header): the records yielded in order, with `some ClogReadError`
if the run ends by raising. -/
def read_records_list (decompress : List Nat → Nat → List Nat) (chunkArea : List Nat) :
    List LogRecord × Option ClogError :=
  let c := read_chunks_list decompress chunkArea
  records_of_chunks c.2 c.1

/-! ### The tail algorithm -/

/-- One entry of the `chunks_map` that pass 1 of `tail` builds. -/
structure ChunkInfo where
  data_offset : Nat
  compressed_size : Nat
  uncompressed_size : Nat
  count : Nat
deriving Repr, DecidableEq

/-- Pass 1 of `tail`: from absolute position `pos`, read each 12-byte chunk header,
record its metadata, and seek forward past the payload without decompressing; stop at
a missing or short header. -/
def tail_scan (fileBytes : List Nat) (pos : Nat) : List ChunkInfo :=
  if h : ((fileBytes.drop pos).take 12).length < 12 then []
  else
    let hdr := (fileBytes.drop pos).take 12
    let compressed_size := readU32 (hdr.getD 0 0) (hdr.getD 1 0) (hdr.getD 2 0) (hdr.getD 3 0)
    { data_offset := pos + 12, compressed_size := compressed_size,
      uncompressed_size := readU32 (hdr.getD 4 0) (hdr.getD 5 0) (hdr.getD 6 0) (hdr.getD 7 0),
      count := readU32 (hdr.getD 8 0) (hdr.getD 9 0) (hdr.getD 10 0) (hdr.getD 11 0) } ::
      tail_scan fileBytes (pos + 12 + compressed_size)
termination_by fileBytes.length - pos
decreasing_by simp only [List.length_take, List.length_drop] at h; omega

/-- Pass 2 of `tail`: walk the chunk map newest to oldest (`acc` holds the chunks
already chosen, oldest first), insert each walked chunk at the front, subtract its
record count from the remaining-needed counter, and stop once that counter is zero or
below. -/
def select_go (needed : Int) (acc : List ChunkInfo) : List ChunkInfo → List ChunkInfo
  | [] => acc
  | c :: rest =>
    let acc' := c :: acc
    let needed' := needed - c.count
    if needed' ≤ 0 then acc' else select_go needed' acc' rest

/-- The `chunks_to_read` list pass 2 computes from `chunks_map` for `tail(n)`. -/
def chunks_to_read (n : Nat) (chunks_map : List ChunkInfo) : List ChunkInfo :=
  select_go (n : Int) [] chunks_map.reverse

/-- The record-parsing loop of pass 3 of `tail`: identical to the strict parser except
that its bare `except Exception: pass` swallows every record-level failure, UTF-8
decode errors included. -/
def parse_fragments_tail : List (List Nat) → List LogRecord
  | [] => []
  | f :: fs =>
    if f = [] then parse_fragments_tail fs
    else
      match utf8Decode f with
      | none => parse_fragments_tail fs
      | some record_str =>
        match pySplit2 FIELD_DELIMITER record_str with
        | [t, l, m] => (t, l, m) :: parse_fragments_tail fs
        | _ => parse_fragments_tail fs

/-- Pass 3 of `tail`, restricted to one chunk payload. -/
def parse_records_tail (decompressed_data : List Nat) : List LogRecord :=
  parse_fragments_tail (pySplitAll RECORD_DELIMITER decompressed_data)

/-- `tail(n)`: pass 1 scans metadata from position 16, pass 2 selects the trailing
chunks, pass 3 seeks to each selected chunk's absolute `data_offset`, decompresses and
parses it leniently; then `results[-n:]` is returned (`[]` for `n = 0`) after the
unconditional `self.file.seek(0, 2)`.  The result is paired with that final file
position. -/
def tail (decompress : List Nat → Nat → List Nat) (fileBytes : List Nat) (n : Nat) :
    List LogRecord × Nat :=
  let chunks_map := tail_scan fileBytes 16
  let selected := chunks_to_read n chunks_map
  let results := (selected.map fun ci =>
    parse_records_tail
      (decompress ((fileBytes.drop ci.data_offset).take ci.compressed_size)
        ci.uncompressed_size)).flatten
  let final_pos := fileBytes.length
  ((if 0 < n then results.drop (results.length - n) else []), final_pos)

/-! ### Spec-side file assembly -/

/-- The payload of a chunk holding the given group of write calls. -/
def serialize_group (g : List WriteCall) : List Nat :=
  (g.map fun c => record_bytes c.timestamp c.level c.message).flatten

/-- A chunk area holding the given groups of records, one chunk per group, as
successive flushes produce. -/
def chunks_of (compress : List Nat → List Nat) (groups : List (List WriteCall)) :
    List Nat :=
  (groups.map fun g => chunk_bytes compress (serialize_group g) g.length).flatten

/-- The record tuple the reader hands back for a write call: the message keeps the
substituted newline sentinel. -/
def parsed_call (c : WriteCall) : LogRecord :=
  (c.timestamp, c.level, processed_message c.message)

/-- A write call whose text survives serialization: every code point is a Unicode
scalar value (so `str.encode('utf-8')` accepts it), and neither the timestamp nor the
level contains a field or record delimiter — true of `datetime.isoformat()` output
and of conventional level names. -/
def WfCall (c : WriteCall) : Prop :=
  (∀ x ∈ c.timestamp, Scalar x) ∧ (∀ x ∈ c.level, Scalar x) ∧
    (∀ x ∈ c.message, Scalar x) ∧
    FIELD_DELIMITER ∉ c.timestamp ∧ RECORD_DELIMITER ∉ c.timestamp ∧
    FIELD_DELIMITER ∉ c.level ∧ RECORD_DELIMITER ∉ c.level

instance (c : WriteCall) : Decidable (WfCall c) := by unfold WfCall; infer_instance

/-- The identity codec `_compress_chunk` applies for `COMPRESSION_NONE`. -/
def compress_none (data : List Nat) : List Nat := data

/-- The identity codec `_decompress_chunk` applies for `COMPRESSION_NONE` (the
expected-size argument is unused). -/
def decompress_none (compressed_data : List Nat) (_uncompressed_size : Nat) : List Nat :=
  compressed_data

/-! ## Helper lemmas on list access -/

theorem getD_take (l : List Nat) (n i d : Nat) (h : i < n) :
    (l.take n).getD i d = l.getD i d := by
  simp [List.getD, List.getElem?_take, h]

theorem take_take_of_le (l : List Nat) (m n : Nat) (h : m ≤ n) :
    (l.take n).take m = l.take m := by
  rw [List.take_take, Nat.min_eq_left h]

/-! ## Claim C4: reader open validation -/

/-- C4.  Opening a reader reads exactly the 16-byte header (the outcome depends only on
those bytes) and fails with the malformed-file error `InvalidClogFileError` on a short
header, a magic mismatch or a version mismatch; it fails with
`UnsupportedCompressionError` when the compression code is not one of
none/gzip/zstd or when the zstd library is unavailable; a file passing all checks
opens successfully, yielding its compression code. -/
theorem C4_reader_open_validation (zstd_available : Bool) (fileBytes : List Nat) :
    (read_header zstd_available fileBytes = read_header zstd_available (fileBytes.take 16)) ∧
    (fileBytes.length < 16 →
      read_header zstd_available fileBytes = .error .invalidClogFile) ∧
    (16 ≤ fileBytes.length → fileBytes.take 4 ≠ MAGIC_BYTES →
      read_header zstd_available fileBytes = .error .invalidClogFile) ∧
    (16 ≤ fileBytes.length → fileBytes.take 4 = MAGIC_BYTES →
      fileBytes.getD 4 0 + 256 * fileBytes.getD 5 0 ≠ FORMAT_VERSION →
      read_header zstd_available fileBytes = .error .invalidClogFile) ∧
    (16 ≤ fileBytes.length → fileBytes.take 4 = MAGIC_BYTES →
      fileBytes.getD 4 0 + 256 * fileBytes.getD 5 0 = FORMAT_VERSION →
      ¬ (fileBytes.getD 6 0 = COMPRESSION_NONE ∨ fileBytes.getD 6 0 = COMPRESSION_GZIP ∨
          fileBytes.getD 6 0 = COMPRESSION_ZSTANDARD) →
      read_header zstd_available fileBytes = .error .unsupportedCompression) ∧
    (16 ≤ fileBytes.length → fileBytes.take 4 = MAGIC_BYTES →
      fileBytes.getD 4 0 + 256 * fileBytes.getD 5 0 = FORMAT_VERSION →
      fileBytes.getD 6 0 = COMPRESSION_ZSTANDARD → zstd_available = false →
      read_header zstd_available fileBytes = .error .unsupportedCompression) ∧
    (16 ≤ fileBytes.length → fileBytes.take 4 = MAGIC_BYTES →
      fileBytes.getD 4 0 + 256 * fileBytes.getD 5 0 = FORMAT_VERSION →
      (fileBytes.getD 6 0 = COMPRESSION_NONE ∨ fileBytes.getD 6 0 = COMPRESSION_GZIP ∨
        fileBytes.getD 6 0 = COMPRESSION_ZSTANDARD) →
      (fileBytes.getD 6 0 = COMPRESSION_ZSTANDARD → zstd_available = true) →
      read_header zstd_available fileBytes = .ok (fileBytes.getD 6 0)) := by
  have htt : (fileBytes.take 16).take 16 = fileBytes.take 16 := take_take_of_le _ 16 16 le_rfl
  have ht4 : (fileBytes.take 16).take 4 = fileBytes.take 4 := take_take_of_le _ 4 16 (by omega)
  have hg4 : (fileBytes.take 16).getD 4 0 = fileBytes.getD 4 0 := getD_take _ 16 4 0 (by omega)
  have hg5 : (fileBytes.take 16).getD 5 0 = fileBytes.getD 5 0 := getD_take _ 16 5 0 (by omega)
  have hg6 : (fileBytes.take 16).getD 6 0 = fileBytes.getD 6 0 := getD_take _ 16 6 0 (by omega)
  have hlen : (fileBytes.take 16).length = min 16 fileBytes.length := by
    simp [List.length_take]
  refine ⟨?_, ?_, ?_, ?_, ?_, ?_, ?_⟩
  · simp only [read_header]
    rw [htt]
  · intro h
    simp only [read_header]
    rw [if_pos (by rw [hlen]; omega)]
  · intro h hm
    simp only [read_header]
    rw [if_neg (by rw [hlen]; omega), if_pos (by rw [ht4]; exact hm)]
  · intro h hm hv
    simp only [read_header]
    rw [if_neg (by rw [hlen]; omega), if_neg (by rw [ht4]; exact fun hx => hx hm),
      if_pos (by rw [hg4, hg5]; exact hv)]
  · intro h hm hv hc
    simp only [read_header]
    rw [if_neg (by rw [hlen]; omega), if_neg (by rw [ht4]; exact fun hx => hx hm),
      if_neg (by rw [hg4, hg5]; exact fun hx => hx hv),
      if_pos (by rw [hg6]; exact hc)]
  · intro h hm hv hc hz
    simp only [read_header]
    rw [if_neg (by rw [hlen]; omega), if_neg (by rw [ht4]; exact fun hx => hx hm),
      if_neg (by rw [hg4, hg5]; exact fun hx => hx hv),
      if_neg (by rw [hg6]; exact fun hx => hx (Or.inr (Or.inr hc))),
      if_pos (by rw [hg6]; exact ⟨hc, hz⟩)]
  · intro h hm hv hc hz
    simp only [read_header]
    rw [if_neg (by rw [hlen]; omega), if_neg (by rw [ht4]; exact fun hx => hx hm),
      if_neg (by rw [hg4, hg5]; exact fun hx => hx hv),
      if_neg (by rw [hg6]; exact fun hx => hx hc),
      if_neg ?_, hg6]
    rw [hg6]
    rintro ⟨hzs, hfalse⟩
    rw [hz hzs] at hfalse
    exact absurd hfalse (by simp)

/-- Witness for C4 at concrete headers: a short file, a wrong magic, a wrong version,
an unknown compression code, an unavailable zstd codec, and a valid gzip file. -/
theorem C4_reader_open_validation_witness :
    read_header true [0, 1, 2] = .error .invalidClogFile ∧
    read_header true [88, 76, 79, 71, 1, 0, 1, 0, 0, 0, 0, 0, 0, 0, 0, 0] =
      .error .invalidClogFile ∧
    read_header true [67, 76, 79, 71, 2, 0, 1, 0, 0, 0, 0, 0, 0, 0, 0, 0] =
      .error .invalidClogFile ∧
    read_header true [67, 76, 79, 71, 1, 0, 7, 0, 0, 0, 0, 0, 0, 0, 0, 0] =
      .error .unsupportedCompression ∧
    read_header false [67, 76, 79, 71, 1, 0, 2, 0, 0, 0, 0, 0, 0, 0, 0, 0] =
      .error .unsupportedCompression ∧
    read_header true [67, 76, 79, 71, 1, 0, 1, 0, 0, 0, 0, 0, 0, 0, 0, 0] = .ok 1 :=
  ⟨(C4_reader_open_validation true _).2.1 (by decide),
    (C4_reader_open_validation true _).2.2.1 (by decide) (by decide),
    (C4_reader_open_validation true _).2.2.2.1 (by decide) (by decide) (by decide),
    (C4_reader_open_validation true _).2.2.2.2.1 (by decide) (by decide) (by decide)
      (by decide),
    (C4_reader_open_validation false _).2.2.2.2.2.1 (by decide) (by decide) (by decide)
      (by decide) rfl,
    (C4_reader_open_validation true _).2.2.2.2.2.2 (by decide) (by decide) (by decide)
      (by decide) (fun _ => rfl)⟩

/-! ## Claim C3: append safety -/

/-- C3.  Append safety: opening a writer in append mode on an existing file with a
valid header whose stored compression code differs from the code requested at
construction fails with the codec-mismatch error — `ClogWriteError`, which the spec's
section 7 taxonomy files as its configuration error — and the file's bytes are left
unchanged: the failing path only reads. -/
theorem C3_append_codec_mismatch (rest : List Nat) (stored requested : Nat)
    (hs : stored = 0 ∨ stored = 1 ∨ stored = 2)
    (hr : requested = 0 ∨ requested = 1 ∨ requested = 2)
    (hne : stored ≠ requested) :
    (open_file_append requested (header_bytes stored ++ rest)).1 = .error .clogWrite ∧
    (open_file_append requested (header_bytes stored ++ rest)).2 =
      header_bytes stored ++ rest := by
  rcases hs with h | h | h <;> rcases hr with h2 | h2 | h2 <;> subst h <;> subst h2 <;>
    first
      | exact absurd rfl hne
      | exact ⟨rfl, rfl⟩

/-- Witness for C3: appending with gzip requested onto a no-compression file fails with
the codec-mismatch error and leaves the bytes alone. -/
theorem C3_append_codec_mismatch_witness :
    (open_file_append COMPRESSION_GZIP
      (header_bytes COMPRESSION_NONE ++ [1, 2, 3])).1 = .error .clogWrite ∧
    (open_file_append COMPRESSION_GZIP
      (header_bytes COMPRESSION_NONE ++ [1, 2, 3])).2 =
      header_bytes COMPRESSION_NONE ++ [1, 2, 3] :=
  C3_append_codec_mismatch [1, 2, 3] COMPRESSION_NONE COMPRESSION_GZIP
    (Or.inl rfl) (Or.inr (Or.inl rfl)) (by decide)

/-! ## Claim C8: frame condition of tail -/

/-- C8.  Frame condition of `tail`: whatever the file contents and `n`, the reader's
file position when `tail(n)` returns is end-of-file — the unconditional
`self.file.seek(0, 2)` at the end of `tail` — so a chained follow-mode
continuation starts exactly after the bytes `tail` already covered, missing no
appended chunk and re-reading none. -/
theorem C8_tail_restores_eof (decompress : List Nat → Nat → List Nat)
    (fileBytes : List Nat) (n : Nat) :
    (tail decompress fileBytes n).2 = fileBytes.length := rfl

/-! ## Claim C6: chunk-boundary behaviour of read_chunks -/

/-- C6.  Chunk-boundary behaviour of `read_chunks`: a zero-byte read at a chunk
boundary terminates the iteration when `follow` is false and sleeps-then-retries when
`follow` is true; a partial chunk-header read of 1 to 11 bytes raises `ClogReadError`
(in either mode, never an exit); and a payload read shorter than the header's
`compressed_size` also raises `ClogReadError`. -/
theorem C6_read_chunks_boundary (decompress : List Nat → Nat → List Nat)
    (follow : Bool) (remaining : List Nat) :
    (remaining = [] → follow = false →
      read_chunks_step decompress follow remaining = .terminate) ∧
    (remaining = [] → follow = true →
      read_chunks_step decompress follow remaining = .sleepRetry) ∧
    (1 ≤ remaining.length → remaining.length < 12 →
      read_chunks_step decompress follow remaining = .raiseReadError) ∧
    (12 ≤ remaining.length →
      remaining.length - 12 < readU32 (remaining.getD 0 0) (remaining.getD 1 0)
        (remaining.getD 2 0) (remaining.getD 3 0) →
      read_chunks_step decompress follow remaining = .raiseReadError) := by
  refine ⟨?_, ?_, ?_, ?_⟩
  · rintro rfl rfl
    rfl
  · rintro rfl rfl
    rfl
  · intro h1 h2
    simp only [read_chunks_step]
    rw [if_neg ?hne, if_pos (by simp only [List.length_take]; omega)]
    case hne =>
      intro hx
      have := congrArg List.length hx
      simp only [List.length_take, List.length_nil] at this
      omega
  · intro h1 h2
    simp only [read_chunks_step]
    rw [if_neg ?hne2, if_neg (by simp only [List.length_take]; omega), if_pos ?hshort]
    case hne2 =>
      intro hx
      have := congrArg List.length hx
      simp only [List.length_take, List.length_nil] at this
      omega
    case hshort =>
      rw [getD_take _ 12 0 0 (by omega), getD_take _ 12 1 0 (by omega),
        getD_take _ 12 2 0 (by omega), getD_take _ 12 3 0 (by omega)]
      simp only [List.length_take, List.length_drop]
      omega

/-- Witness for C6: the four boundary cases at concrete byte strings (a 14-byte file
whose chunk header promises only 5 payload bytes but 2 remain, for the short-payload
case). -/
theorem C6_read_chunks_boundary_witness :
    read_chunks_step decompress_none false [] = .terminate ∧
    read_chunks_step decompress_none true [] = .sleepRetry ∧
    read_chunks_step decompress_none false [1, 2, 3] = .raiseReadError ∧
    read_chunks_step decompress_none true [1, 2, 3] = .raiseReadError ∧
    read_chunks_step decompress_none false
      [5, 0, 0, 0, 5, 0, 0, 0, 1, 0, 0, 0, 1, 2] = .raiseReadError :=
  ⟨(C6_read_chunks_boundary decompress_none false []).1 rfl rfl,
    (C6_read_chunks_boundary decompress_none true []).2.1 rfl rfl,
    (C6_read_chunks_boundary decompress_none false [1, 2, 3]).2.2.1 (by decide) (by decide),
    (C6_read_chunks_boundary decompress_none true [1, 2, 3]).2.2.1 (by decide) (by decide),
    (C6_read_chunks_boundary decompress_none false _).2.2.2 (by decide) (by decide)⟩

/-! ## Claim C7: record-level leniency, container-level strictness -/

/-- C7.  In `read_records`, a non-empty fragment that decodes but splits on the field
delimiter into other than exactly three parts is silently skipped and iteration
continues with the rest of the payload; a fragment containing at least two field
delimiters parses with the first two delimiters bounding timestamp and level and the
message capturing everything after the second; and a fragment whose bytes fail UTF-8
decoding raises the hard `ClogReadError`, aborting the iteration. -/
theorem C7_read_records_leniency (f rest : List Nat) (hne : f ≠ [])
    (hnd : RECORD_DELIMITER ∉ f) :
    (∀ s, utf8Decode f = some s → (pySplit2 FIELD_DELIMITER s).length ≠ 3 →
      parse_records_strict (f ++ [RECORD_DELIMITER] ++ rest) =
        parse_records_strict rest) ∧
    (∀ a b c2, utf8Decode f = some (a ++ [FIELD_DELIMITER] ++ (b ++ [FIELD_DELIMITER] ++ c2)) →
      FIELD_DELIMITER ∉ a → FIELD_DELIMITER ∉ b →
      parse_records_strict (f ++ [RECORD_DELIMITER] ++ rest) =
        ((a, b, c2) :: (parse_records_strict rest).1, (parse_records_strict rest).2)) ∧
    (utf8Decode f = none →
      parse_records_strict (f ++ [RECORD_DELIMITER] ++ rest) = ([], some .clogRead)) := by
  have hsplit : pySplitAll RECORD_DELIMITER (f ++ [RECORD_DELIMITER] ++ rest) =
      f :: pySplitAll RECORD_DELIMITER rest := by
    have : f ++ [RECORD_DELIMITER] ++ rest = f ++ RECORD_DELIMITER :: rest := by simp
    rw [this, pySplitAll_append_sep _ _ _ hnd]
  refine ⟨?_, ?_, ?_⟩
  · intro s hdec hparts
    simp only [parse_records_strict, hsplit, parse_fragments_strict, if_neg hne, hdec]
    match hp : pySplit2 FIELD_DELIMITER s with
    | [t, l, m] => exact absurd (by rw [hp]; rfl) hparts
    | [] => rfl
    | [x] => rfl
    | [x, y] => rfl
    | x :: y :: z :: w :: t => rfl
  · intro a b c2 hdec ha hb
    have hform : a ++ [FIELD_DELIMITER] ++ (b ++ [FIELD_DELIMITER] ++ c2) =
        a ++ FIELD_DELIMITER :: (b ++ FIELD_DELIMITER :: c2) := by simp
    rw [hform] at hdec
    simp only [parse_records_strict, hsplit, parse_fragments_strict, if_neg hne, hdec,
      pySplit2_parts _ _ _ _ ha hb]
  · intro hdec
    simp only [parse_records_strict, hsplit, parse_fragments_strict, if_neg hne, hdec]

/-- Witness for C7 at concrete fragments: "A" (one part) is skipped with iteration
continuing, "T\tI\tm" parses into three fields, and the lone byte 0xFF is a hard read
error. -/
theorem C7_read_records_leniency_witness :
    parse_records_strict ([65] ++ [RECORD_DELIMITER] ++ [9, 9, 10]) =
      parse_records_strict [9, 9, 10] ∧
    parse_records_strict ([84, 9, 73, 9, 109] ++ [RECORD_DELIMITER] ++ []) =
      (([84], [73], [109]) :: (parse_records_strict []).1, (parse_records_strict []).2) ∧
    parse_records_strict ([255] ++ [RECORD_DELIMITER] ++ []) = ([], some .clogRead) :=
  ⟨(C7_read_records_leniency [65] [9, 9, 10] (by decide) (by decide)).1 [65]
      (by simp [utf8Decode]) (by decide),
    (C7_read_records_leniency [84, 9, 73, 9, 109] [] (by decide) (by decide)).2.1
      [84] [73] [109] (by simp [utf8Decode, FIELD_DELIMITER]) (by decide) (by decide),
    (C7_read_records_leniency [255] [] (by decide) (by decide)).2.2 (by simp [utf8Decode])⟩

/-! ## Claim C10: tail swallows what read_records raises -/

/-- C10.  Divergence on undecodable records: the record parser inside `tail` swallows
every exception, so a fragment whose bytes are not valid UTF-8 is silently skipped and
parsing continues with the rest of the payload — `tail` is a total function of the file
bytes and never raises for record contents — while `read_records` raises the hard
`ClogReadError` on the same payload. -/
theorem C10_tail_lenient_read_records_strict (f rest : List Nat) (hne : f ≠ [])
    (hnd : RECORD_DELIMITER ∉ f) (hbad : utf8Decode f = none) :
    parse_records_tail (f ++ [RECORD_DELIMITER] ++ rest) = parse_records_tail rest ∧
    parse_records_strict (f ++ [RECORD_DELIMITER] ++ rest) = ([], some .clogRead) := by
  have hsplit : pySplitAll RECORD_DELIMITER (f ++ [RECORD_DELIMITER] ++ rest) =
      f :: pySplitAll RECORD_DELIMITER rest := by
    have hform : f ++ [RECORD_DELIMITER] ++ rest = f ++ RECORD_DELIMITER :: rest := by simp
    rw [hform, pySplitAll_append_sep _ _ _ hnd]
  constructor
  · simp only [parse_records_tail, hsplit, parse_fragments_tail, if_neg hne, hbad]
  · simp only [parse_records_strict, hsplit, parse_fragments_strict, if_neg hne, hbad]

/-- Witness for C10: on the payload `b"\xff\n" + b"T\tI\tm\n"`, `tail`'s parser skips
the undecodable fragment and still parses the following record, while `read_records`
raises. -/
theorem C10_tail_lenient_read_records_strict_witness :
    parse_records_tail ([255] ++ [RECORD_DELIMITER] ++ [84, 9, 73, 9, 109, 10]) =
      parse_records_tail [84, 9, 73, 9, 109, 10] ∧
    parse_records_strict ([255] ++ [RECORD_DELIMITER] ++ [84, 9, 73, 9, 109, 10]) =
      ([], some .clogRead) :=
  C10_tail_lenient_read_records_strict [255] [84, 9, 73, 9, 109, 10]
    (by decide) (by decide) (by simp [utf8Decode])

/-! ## Per-record serialization lemmas -/

theorem processed_message_no_delim (msg : List Nat) :
    RECORD_DELIMITER ∉ processed_message msg := by
  intro hx
  simp only [processed_message, List.mem_map] at hx
  obtain ⟨y, _, hyx⟩ := hx
  by_cases hy : y = 10
  · simp [hy, RECORD_DELIMITER] at hyx
  · rw [if_neg hy] at hyx
    exact hy (hyx.trans rfl)

theorem processed_message_scalar (msg : List Nat) (h : ∀ x ∈ msg, Scalar x) :
    ∀ x ∈ processed_message msg, Scalar x := by
  intro x hx
  simp only [processed_message, List.mem_map] at hx
  obtain ⟨y, hy, hyx⟩ := hx
  by_cases hy10 : y = 10
  · rw [if_pos hy10] at hyx
    rw [← hyx]
    exact Or.inl (by omega)
  · rw [if_neg hy10] at hyx
    exact hyx ▸ h y hy

theorem record_body_scalar (ts lvl msg : List Nat)
    (hts : ∀ x ∈ ts, Scalar x) (hlv : ∀ x ∈ lvl, Scalar x) (hm : ∀ x ∈ msg, Scalar x) :
    ∀ x ∈ record_body ts lvl msg, Scalar x := by
  intro x hx
  simp [record_body, FIELD_DELIMITER] at hx
  rcases hx with hx | hx | hx | hx | hx
  · exact hts x hx
  · exact hx ▸ Or.inl (by omega)
  · exact hlv x hx
  · exact hx ▸ Or.inl (by omega)
  · exact processed_message_scalar msg hm x hx

theorem record_body_no_nl (ts lvl msg : List Nat)
    (h2 : RECORD_DELIMITER ∉ ts) (h4 : RECORD_DELIMITER ∉ lvl) :
    RECORD_DELIMITER ∉ record_body ts lvl msg := by
  intro hx
  simp [record_body, FIELD_DELIMITER, RECORD_DELIMITER] at hx
  rcases hx with hx | hx | hx
  · exact h2 hx
  · exact h4 hx
  · exact processed_message_no_delim msg hx

theorem record_body_ne_nil (ts lvl msg : List Nat) : record_body ts lvl msg ≠ [] := by
  intro hx
  have := congrArg List.length hx
  simp [record_body] at this

theorem utf8Encode_ne_nil (s : List Nat) (h : s ≠ []) : utf8Encode s ≠ [] := by
  cases s with
  | nil => exact absurd rfl h
  | cons c t =>
    simp only [utf8Encode, List.flatMap_cons]
    intro hx
    rcases List.append_eq_nil.mp hx with ⟨h1, _⟩
    exact utf8EncodeChar_ne_nil c h1

theorem record_body_split (ts lvl msg : List Nat)
    (h1 : FIELD_DELIMITER ∉ ts) (h3 : FIELD_DELIMITER ∉ lvl) :
    pySplit2 FIELD_DELIMITER (record_body ts lvl msg) =
      [ts, lvl, processed_message msg] := by
  have hform : record_body ts lvl msg =
      ts ++ FIELD_DELIMITER :: (lvl ++ FIELD_DELIMITER :: processed_message msg) := by
    simp [record_body]
  rw [hform, pySplit2_parts _ _ _ _ h1 h3]

/-- The bytes of one serialized record are its encoded body followed by the literal
record-delimiter byte, and that byte occurs nowhere in the encoded body. -/
theorem record_bytes_decomp (ts lvl msg : List Nat)
    (h2 : RECORD_DELIMITER ∉ ts) (h4 : RECORD_DELIMITER ∉ lvl) :
    record_bytes ts lvl msg = utf8Encode (record_body ts lvl msg) ++ [RECORD_DELIMITER] ∧
    RECORD_DELIMITER ∉ utf8Encode (record_body ts lvl msg) := by
  constructor
  · rw [record_bytes, utf8Encode_append]
    rfl
  · exact mem_utf8Encode_ascii (by simp [RECORD_DELIMITER]) _
      (record_body_no_nl ts lvl msg h2 h4)

theorem record_bytes_eq (ts lvl msg : List Nat) :
    record_bytes ts lvl msg =
      utf8Encode (record_body ts lvl msg) ++ [RECORD_DELIMITER] := by
  rw [record_bytes, utf8Encode_append]
  rfl

/-- The strict parser over the encoded fragments of well-formed calls recovers every
record and continues into the remaining fragments. -/
theorem parse_fragments_strict_calls (g : List WriteCall) (hwf : ∀ c ∈ g, WfCall c)
    (rest : List (List Nat)) :
    parse_fragments_strict
      ((g.map fun c => utf8Encode (record_body c.timestamp c.level c.message)) ++ rest) =
      (g.map parsed_call ++ (parse_fragments_strict rest).1,
        (parse_fragments_strict rest).2) := by
  induction g with
  | nil => simp
  | cons c t ih =>
    obtain ⟨hts, hlv, hm, h1, h2, h3, h4⟩ := hwf c (by simp)
    have hne := utf8Encode_ne_nil _ (record_body_ne_nil c.timestamp c.level c.message)
    have hdec : utf8Decode (utf8Encode (record_body c.timestamp c.level c.message)) =
        some (record_body c.timestamp c.level c.message) :=
      utf8Decode_utf8Encode _ (record_body_scalar _ _ _ hts hlv hm)
    simp only [List.map_cons, List.cons_append, parse_fragments_strict, if_neg hne, hdec,
      record_body_split _ _ _ h1 h3, List.append_eq]
    rw [ih (fun x hx => hwf x (by simp [hx]))]
    rfl

/-- The lenient `tail` parser over the same fragments recovers the same records. -/
theorem parse_fragments_tail_calls (g : List WriteCall) (hwf : ∀ c ∈ g, WfCall c)
    (rest : List (List Nat)) :
    parse_fragments_tail
      ((g.map fun c => utf8Encode (record_body c.timestamp c.level c.message)) ++ rest) =
      g.map parsed_call ++ parse_fragments_tail rest := by
  induction g with
  | nil => simp
  | cons c t ih =>
    obtain ⟨hts, hlv, hm, h1, h2, h3, h4⟩ := hwf c (by simp)
    have hne := utf8Encode_ne_nil _ (record_body_ne_nil c.timestamp c.level c.message)
    have hdec : utf8Decode (utf8Encode (record_body c.timestamp c.level c.message)) =
        some (record_body c.timestamp c.level c.message) :=
      utf8Decode_utf8Encode _ (record_body_scalar _ _ _ hts hlv hm)
    simp only [List.map_cons, List.cons_append, parse_fragments_tail, if_neg hne, hdec,
      record_body_split _ _ _ h1 h3, List.append_eq]
    rw [ih (fun x hx => hwf x (by simp [hx]))]
    rfl

theorem serialize_group_decomp (g : List WriteCall) :
    serialize_group g =
      ((g.map fun c => utf8Encode (record_body c.timestamp c.level c.message)).map
        (· ++ [RECORD_DELIMITER])).flatten := by
  simp only [serialize_group, List.map_map]
  congr 1
  exact List.map_congr_left fun c _ => record_bytes_eq c.timestamp c.level c.message

theorem no_nl_in_encoded_body (g : List WriteCall) (hwf : ∀ c ∈ g, WfCall c) :
    ∀ f ∈ g.map fun c => utf8Encode (record_body c.timestamp c.level c.message),
      RECORD_DELIMITER ∉ f := by
  intro f hf
  simp only [List.mem_map] at hf
  obtain ⟨c, hc, rfl⟩ := hf
  obtain ⟨_, _, _, _, h2, _, h4⟩ := hwf c hc
  exact mem_utf8Encode_ascii (by simp [RECORD_DELIMITER]) _
    (record_body_no_nl _ _ _ h2 h4)

/-- `read_records` on one chunk payload of well-formed calls yields exactly those
records, in order, with no error. -/
theorem parse_records_strict_group (g : List WriteCall) (hwf : ∀ c ∈ g, WfCall c) :
    parse_records_strict (serialize_group g) = (g.map parsed_call, none) := by
  rw [parse_records_strict, serialize_group_decomp,
    pySplitAll_flatten _ _ (no_nl_in_encoded_body g hwf),
    parse_fragments_strict_calls g hwf [[]]]
  simp [parse_fragments_strict]

/-- `tail`'s parser on one chunk payload of well-formed calls yields the same. -/
theorem parse_records_tail_group (g : List WriteCall) (hwf : ∀ c ∈ g, WfCall c) :
    parse_records_tail (serialize_group g) = g.map parsed_call := by
  rw [parse_records_tail, serialize_group_decomp,
    pySplitAll_flatten _ _ (no_nl_in_encoded_body g hwf),
    parse_fragments_tail_calls g hwf [[]]]
  simp [parse_fragments_tail]

/-! ## Claim C9: delimiter invariant of serialized records -/

/-- Counterexample to C9 as stated: C9 quantifies over all input level strings, but for
the level "IN\tFO" the serialized record's level region contains a literal field
delimiter, and splitting the serialized record recovers level "IN" and message
"FO\tm" instead of the original boundaries. -/
theorem C9_counterexample :
    FIELD_DELIMITER ∈ utf8Encode [73, 78, 9, 70, 79] ∧
    parse_records_strict (record_bytes [48] [73, 78, 9, 70, 79] [109]) =
      ([([48], [73, 78], [70, 79, 9, 109])], none) ∧
    ([73, 78] : List Nat) ≠ [73, 78, 9, 70, 79] := by
  refine ⟨by decide, ?_, by decide⟩
  have hrb : record_bytes [48] [73, 78, 9, 70, 79] [109] =
      [48, 9, 73, 78, 9, 70, 79, 9, 109] ++ RECORD_DELIMITER :: [] := by decide
  have hdec : utf8Decode [48, 9, 73, 78, 9, 70, 79, 9, 109] =
      some [48, 9, 73, 78, 9, 70, 79, 9, 109] := by
    have h := utf8Decode_utf8Encode [48, 9, 73, 78, 9, 70, 79, 9, 109] (by decide)
    rwa [show utf8Encode [48, 9, 73, 78, 9, 70, 79, 9, 109] =
      [48, 9, 73, 78, 9, 70, 79, 9, 109] from by decide] at h
  rw [parse_records_strict, hrb, pySplitAll_append_sep _ _ _ (by decide)]
  simp [parse_fragments_strict, hdec, pySplit2, splitOnce, FIELD_DELIMITER,
    pySplitAll]

/-- C9 amended: the record delimiter never occurs literally in a serialized message —
newlines were substituted by the sentinel — for every input message; and provided the
level (like the ambient `isoformat()` timestamp) contains no field or record
delimiter, neither delimiter occurs literally in the serialized timestamp or level, so
splitting the chunk payload on the record delimiter and then on the first two field
delimiters recovers `(timestamp, level, sentinel-substituted message)` unambiguously. -/
theorem C9_serialized_delimiters (ts lvl msg : List Nat)
    (hts : ∀ x ∈ ts, Scalar x) (hlv : ∀ x ∈ lvl, Scalar x) (hm : ∀ x ∈ msg, Scalar x)
    (h1 : FIELD_DELIMITER ∉ ts) (h2 : RECORD_DELIMITER ∉ ts)
    (h3 : FIELD_DELIMITER ∉ lvl) (h4 : RECORD_DELIMITER ∉ lvl) :
    FIELD_DELIMITER ∉ utf8Encode ts ∧ RECORD_DELIMITER ∉ utf8Encode ts ∧
    FIELD_DELIMITER ∉ utf8Encode lvl ∧ RECORD_DELIMITER ∉ utf8Encode lvl ∧
    RECORD_DELIMITER ∉ utf8Encode (processed_message msg) ∧
    parse_records_strict (record_bytes ts lvl msg) =
      ([(ts, lvl, processed_message msg)], none) := by
  refine ⟨mem_utf8Encode_ascii (by simp [FIELD_DELIMITER]) _ h1,
    mem_utf8Encode_ascii (by simp [RECORD_DELIMITER]) _ h2,
    mem_utf8Encode_ascii (by simp [FIELD_DELIMITER]) _ h3,
    mem_utf8Encode_ascii (by simp [RECORD_DELIMITER]) _ h4,
    mem_utf8Encode_ascii (by simp [RECORD_DELIMITER]) _ (processed_message_no_delim msg),
    ?_⟩
  have h := parse_records_strict_group [⟨ts, lvl, msg, false⟩]
    (by intro c hc; simp at hc; subst hc; exact ⟨hts, hlv, hm, h1, h2, h3, h4⟩)
  simpa [serialize_group, parsed_call] using h

/-- Witness for the amended C9 at a concrete record with a tab and a newline in the
message. -/
theorem C9_serialized_delimiters_witness :
    FIELD_DELIMITER ∉ utf8Encode [84] ∧ RECORD_DELIMITER ∉ utf8Encode [84] ∧
    FIELD_DELIMITER ∉ utf8Encode [73, 78, 70, 79] ∧
    RECORD_DELIMITER ∉ utf8Encode [73, 78, 70, 79] ∧
    RECORD_DELIMITER ∉ utf8Encode (processed_message [104, 10, 9, 105]) ∧
    parse_records_strict (record_bytes [84] [73, 78, 70, 79] [104, 10, 9, 105]) =
      ([([84], [73, 78, 70, 79], processed_message [104, 10, 9, 105])], none) :=
  C9_serialized_delimiters [84] [73, 78, 70, 79] [104, 10, 9, 105]
    (by decide) (by decide) (by decide) (by decide) (by decide) (by decide) (by decide)

/-! ## Chunk-stream lemmas -/

/-- Size bounds under which `struct.pack('<III', …)` serializes a chunk's sizes and
count faithfully. -/
def ChunkFits (compress : List Nat → List Nat) (g : List WriteCall) : Prop :=
  (compress (serialize_group g)).length < 4294967296 ∧
  (serialize_group g).length < 4294967296 ∧ g.length < 4294967296

instance (compress : List Nat → List Nat) (g : List WriteCall) :
    Decidable (ChunkFits compress g) := by
  unfold ChunkFits
  infer_instance

/-- `read_chunks` consumes one well-sized chunk and yields its decompressed payload
and stored record count. -/
theorem read_chunks_list_chunk (decompress : List Nat → Nat → List Nat)
    (compress : List Nat → List Nat) (data : List Nat) (count : Nat) (more : List Nat)
    (hc : (compress data).length < 4294967296) (hd : data.length < 4294967296)
    (hn : count < 4294967296)
    (hcd : decompress (compress data) data.length = data) :
    read_chunks_list decompress (chunk_bytes compress data count ++ more) =
      ((data, count) :: (read_chunks_list decompress more).1,
        (read_chunks_list decompress more).2) := by
  have h1 : chunk_bytes compress data count ++ more =
      ((compress data).length % 256) :: ((compress data).length / 256 % 256) ::
      ((compress data).length / 65536 % 256) :: ((compress data).length / 16777216 % 256) ::
      (data.length % 256) :: (data.length / 256 % 256) ::
      (data.length / 65536 % 256) :: (data.length / 16777216 % 256) ::
      (count % 256) :: (count / 256 % 256) ::
      (count / 65536 % 256) :: (count / 16777216 % 256) :: (compress data ++ more) := by
    simp [chunk_bytes, u32le]
  rw [h1]
  simp only [read_chunks_list]
  rw [readU32_u32le _ hc, readU32_u32le _ hd, readU32_u32le _ hn,
    List.take_left, List.drop_left]
  rw [if_neg (by omega), hcd]

/-- `read_chunks` over a whole well-sized chunk area yields one
`(payload, record_count)` pair per chunk, ending cleanly at end-of-file. -/
theorem read_chunks_list_chunks_of (decompress : List Nat → Nat → List Nat)
    (compress : List Nat → List Nat) (groups : List (List WriteCall))
    (hfits : ∀ g ∈ groups, ChunkFits compress g)
    (hcd : ∀ data, decompress (compress data) data.length = data) :
    read_chunks_list decompress (chunks_of compress groups) =
      (groups.map fun g => (serialize_group g, g.length), none) := by
  induction groups with
  | nil =>
    rw [show chunks_of compress [] = [] from rfl]
    rw [read_chunks_list]
    rfl
  | cons g gs ih =>
    obtain ⟨h1, h2, h3⟩ := hfits g (by simp)
    have hco : chunks_of compress (g :: gs) =
        chunk_bytes compress (serialize_group g) g.length ++ chunks_of compress gs := by
      simp [chunks_of]
    rw [hco, read_chunks_list_chunk decompress compress _ _ _ h1 h2 h3 (hcd _),
      ih (fun x hx => hfits x (by simp [hx]))]
    rfl

/-- Concatenating the per-chunk parses of well-formed groups yields all records in
order with no error. -/
theorem records_of_chunks_groups (groups : List (List WriteCall))
    (hwf : ∀ g ∈ groups, ∀ c ∈ g, WfCall c) :
    records_of_chunks none (groups.map fun g => (serialize_group g, g.length)) =
      ((groups.flatten).map parsed_call, none) := by
  induction groups with
  | nil => rfl
  | cons g gs ih =>
    simp only [List.map_cons, records_of_chunks,
      parse_records_strict_group g (hwf g (by simp))]
    rw [ih (fun x hx => hwf x (by simp [hx]))]
    simp

/-- `read_records` over a whole well-formed chunk area yields every written record in
order, with the message in sentinel-substituted form, and no error. -/
theorem read_records_list_chunks_of (decompress : List Nat → Nat → List Nat)
    (compress : List Nat → List Nat) (groups : List (List WriteCall))
    (hfits : ∀ g ∈ groups, ChunkFits compress g)
    (hwf : ∀ g ∈ groups, ∀ c ∈ g, WfCall c)
    (hcd : ∀ data, decompress (compress data) data.length = data) :
    read_records_list decompress (chunks_of compress groups) =
      ((groups.flatten).map parsed_call, none) := by
  rw [read_records_list, read_chunks_list_chunks_of decompress compress groups hfits hcd]
  exact records_of_chunks_groups groups hwf

theorem serialize_group_append (a b : List WriteCall) :
    serialize_group (a ++ b) = serialize_group a ++ serialize_group b := by
  simp [serialize_group]

theorem header_bytes_length (code : Nat) : (header_bytes code).length = 16 := by
  simp [header_bytes, MAGIC_BYTES]

/-! ## Writer invariant -/

/-- The reachable-state invariant of the writer: the file is the header followed by
one chunk per flushed group of calls, the buffer holds the serialized unflushed
suffix, the counters track the buffer exactly, and no flushed chunk is empty. -/
def WriterInv (compress : List Nat → List Nat) (compression_code : Nat)
    (done : List WriteCall) (st : WriterState) : Prop :=
  ∃ groups bufCalls,
    groups.flatten ++ bufCalls = done ∧
    st.buffer = bufCalls.map (fun c => record_bytes c.timestamp c.level c.message) ∧
    st.buffer_current_records = bufCalls.length ∧
    st.buffer_current_size = (serialize_group bufCalls).length ∧
    st.fileBytes = header_bytes compression_code ++ chunks_of compress groups ∧
    (∀ g ∈ groups, g ≠ [])

theorem writer_create_inv (compress : List Nat → List Nat) (code : Nat) :
    WriterInv compress code [] (writer_create code) :=
  ⟨[], [], rfl, rfl, rfl, rfl, by simp [writer_create, chunks_of], by simp⟩

/-- `_flush_chunk` on a non-empty buffer: one chunk is appended and the buffer and
counters clear. -/
theorem flush_chunk_nonempty (compress : List Nat → List Nat) (st : WriterState)
    (h : st.buffer ≠ []) :
    flush_chunk compress st =
      { buffer := [], buffer_current_size := 0, buffer_current_records := 0,
        fileBytes := st.fileBytes ++
          chunk_bytes compress st.buffer.flatten st.buffer_current_records } := by
  rw [flush_chunk, if_neg h]

theorem write_record_inv (compress : List Nat → List Nat) (code bfs bfr : Nat)
    (st : WriterState) (done : List WriteCall) (c : WriteCall)
    (h : WriterInv compress code done st) :
    WriterInv compress code (done ++ [c])
      (write_record compress bfs bfr st c.timestamp c.level c.message c.time_trigger) := by
  obtain ⟨groups, bufCalls, hflat, hbuf, hrec, hsize, hfile, hne⟩ := h
  rw [write_record]
  split
  · -- a trigger fired: the appended buffer is flushed as one chunk
    rw [flush_chunk_nonempty compress _ (by simp)]
    refine ⟨groups ++ [bufCalls ++ [c]], [], ?_, rfl, rfl, rfl, ?_, ?_⟩
    · simp [← hflat]
    · have hdata : (st.buffer ++
          [record_bytes c.timestamp c.level c.message]).flatten =
          serialize_group (bufCalls ++ [c]) := by
        simp [hbuf, serialize_group]
      have hcount : st.buffer_current_records + 1 = (bufCalls ++ [c]).length := by
        simp [hrec]
      show st.fileBytes ++ chunk_bytes compress
          ((st.buffer ++ [record_bytes c.timestamp c.level c.message]).flatten)
          (st.buffer_current_records + 1) =
        header_bytes code ++ chunks_of compress (groups ++ [bufCalls ++ [c]])
      rw [hdata, hcount, hfile]
      simp [chunks_of, List.append_assoc]
    · intro g hg
      rcases List.mem_append.mp hg with hg | hg
      · exact hne g hg
      · simp at hg
        simp [hg]
  · -- no trigger: the record stays buffered
    refine ⟨groups, bufCalls ++ [c], ?_, ?_, ?_, ?_, ?_, hne⟩
    · rw [← List.append_assoc, hflat]
    · simp [hbuf]
    · simp [hrec]
    · simp [hsize, serialize_group_append, serialize_group]
    · exact hfile

theorem write_all_inv (compress : List Nat → List Nat) (code bfs bfr : Nat)
    (calls : List WriteCall) :
    ∀ (st : WriterState) (done : List WriteCall), WriterInv compress code done st →
    WriterInv compress code (done ++ calls) (write_all compress bfs bfr st calls) := by
  induction calls with
  | nil =>
    intro st done h
    simpa [write_all] using h
  | cons c t ih =>
    intro st done h
    have h2 := ih _ _ (write_record_inv compress code bfs bfr st done c h)
    rw [write_all] at h2 ⊢
    simpa [List.append_assoc] using h2

/-- After `close()`, the file is the header plus one chunk per group, every group is
non-empty, and the groups concatenate to the full call sequence. -/
theorem close_writer_inv (compress : List Nat → List Nat) (code : Nat)
    (st : WriterState) (done : List WriteCall)
    (h : WriterInv compress code done st) :
    ∃ groups : List (List WriteCall), groups.flatten = done ∧
      (close_writer compress st).fileBytes =
        header_bytes code ++ chunks_of compress groups ∧
      (∀ g ∈ groups, g ≠ []) := by
  obtain ⟨groups, bufCalls, hflat, hbuf, hrec, hsize, hfile, hne⟩ := h
  rw [close_writer, flush_chunk]
  by_cases hb : bufCalls = []
  · subst hb
    rw [if_pos (by simp [hbuf])]
    exact ⟨groups, by simpa using hflat, hfile, hne⟩
  · rw [if_neg (by simp [hbuf, hb])]
    refine ⟨groups ++ [bufCalls], by simp [← hflat], ?_, ?_⟩
    · have hdata : st.buffer.flatten = serialize_group bufCalls := by
        simp [hbuf, serialize_group]
      simp only [hdata, hrec, hfile, chunks_of, List.map_append, List.flatten_append,
        List.map_cons, List.map_nil, List.flatten_cons, List.flatten_nil,
        List.append_nil, List.append_assoc]
    · intro g hg
      rcases List.mem_append.mp hg with hg | hg
      · exact hne g hg
      · simp at hg
        simp [hg, hb]

theorem serialize_group_length_le (groups : List (List WriteCall)) (g : List WriteCall)
    (hg : g ∈ groups) :
    (serialize_group g).length ≤ (serialize_group groups.flatten).length := by
  obtain ⟨s, t, rfl⟩ := List.append_of_mem hg
  simp [List.flatten_append, serialize_group_append, List.length_append]
  omega

theorem group_length_le (groups : List (List WriteCall)) (g : List WriteCall)
    (hg : g ∈ groups) : g.length ≤ groups.flatten.length := by
  obtain ⟨s, t, rfl⟩ := List.append_of_mem hg
  simp [List.flatten_append, List.length_append]
  omega

/-! ## Claim C1: write/read round trip -/

/-- C1 amended.  Round trip through a file: writing any sequence of calls (whose
levels and ambient timestamps are delimiter-free scalar text) with any codec
satisfying the compress/decompress contract and any thresholds, closing, and
reopening: the header validates with the written compression code, and
`read_records()` yields the same number of records in the same order, each with the
written level and with the message equal to the written message with every newline
replaced by the sentinel byte `\v` — `read_records` does NOT restore the sentinel to
a newline (only the CLI display layer does). -/
theorem C1_roundtrip_sentinel (compress : List Nat → List Nat)
    (decompress : List Nat → Nat → List Nat)
    (hcd : ∀ data, decompress (compress data) data.length = data)
    (hclen : ∀ data, data.length < 4294967296 → (compress data).length < 4294967296)
    (bfs bfr code : Nat) (hcode : code = 0 ∨ code = 1 ∨ code = 2)
    (calls : List WriteCall) (hwf : ∀ c ∈ calls, WfCall c)
    (hsize : (serialize_group calls).length < 4294967296)
    (hcnt : calls.length < 4294967296) :
    read_header true ((close_writer compress (write_all compress bfs bfr
      (writer_create code) calls)).fileBytes) = .ok code ∧
    read_records_list decompress ((close_writer compress (write_all compress bfs bfr
      (writer_create code) calls)).fileBytes.drop 16) =
      (calls.map parsed_call, none) := by
  obtain ⟨groups, hflat, hfile, hne⟩ := close_writer_inv compress code _ _
    (by simpa using
      write_all_inv compress code bfs bfr calls _ [] (writer_create_inv compress code))
  have hfits : ∀ g ∈ groups, ChunkFits compress g := by
    intro g hg
    have h1 : (serialize_group g).length ≤ (serialize_group calls).length := by
      rw [← hflat]
      exact serialize_group_length_le groups g hg
    have h2 : g.length ≤ calls.length := by
      rw [← hflat]
      exact group_length_le groups g hg
    exact ⟨hclen _ (lt_of_le_of_lt h1 hsize), lt_of_le_of_lt h1 hsize,
      lt_of_le_of_lt h2 hcnt⟩
  have hwfg : ∀ g ∈ groups, ∀ c ∈ g, WfCall c := by
    intro g hg c hc
    refine hwf c ?_
    rw [← hflat]
    exact List.mem_flatten.mpr ⟨g, hg, hc⟩
  constructor
  · rw [hfile]
    rcases hcode with h | h | h <;> subst h <;> rfl
  · rw [hfile, List.drop_left' (header_bytes_length code),
      read_records_list_chunks_of decompress compress groups hfits hwfg hcd, hflat]

/-- Counterexample to C1 as stated: write the single record (level "I", message
"a\nb") with the no-compression codec under the default thresholds, close, and
reopen — `read_records` returns the message as "a\vb": the sentinel byte substituted
for the newline on write is NOT restored to a newline on read. -/
theorem C1_counterexample :
    read_records_list decompress_none
      ((close_writer compress_none (write_all compress_none DEFAULT_BUFFER_FLUSH_SIZE
        DEFAULT_BUFFER_FLUSH_RECORDS (writer_create COMPRESSION_NONE)
        [⟨[84], [73], [97, 10, 98], false⟩])).fileBytes.drop 16) =
      ([([84], [73], [97, 11, 98])], none) ∧
    ([97, 11, 98] : List Nat) ≠ [97, 10, 98] := by
  refine ⟨?_, by decide⟩
  have hfile : (close_writer compress_none (write_all compress_none
      DEFAULT_BUFFER_FLUSH_SIZE DEFAULT_BUFFER_FLUSH_RECORDS
      (writer_create COMPRESSION_NONE) [⟨[84], [73], [97, 10, 98], false⟩])).fileBytes =
      header_bytes COMPRESSION_NONE ++
        chunks_of compress_none [[⟨[84], [73], [97, 10, 98], false⟩]] := by decide
  rw [hfile, List.drop_left' (header_bytes_length _),
    read_records_list_chunks_of decompress_none compress_none _ (by decide) (by decide)
      (fun _ => rfl)]
  rfl

/-- Witness for the amended C1: the spec's own scenario — two records, the second with
an embedded newline — written with the no-compression codec and read back, the second
message carrying the sentinel. -/
theorem C1_roundtrip_sentinel_witness :
    read_header true ((close_writer compress_none (write_all compress_none
      DEFAULT_BUFFER_FLUSH_SIZE DEFAULT_BUFFER_FLUSH_RECORDS
      (writer_create COMPRESSION_NONE)
      [⟨[50, 48, 50, 52, 45, 48, 49, 45, 48, 49, 84, 48, 48, 58, 48, 48, 58, 48, 48],
        [73, 78, 70, 79], [104, 101, 108, 108, 111], false⟩,
       ⟨[50, 48, 50, 52, 45, 48, 49, 45, 48, 49, 84, 48, 48, 58, 48, 48, 58, 48, 49],
        [69, 82, 82, 79, 82],
        [108, 105, 110, 101, 49, 10, 108, 105, 110, 101, 50], false⟩])).fileBytes) =
      .ok COMPRESSION_NONE ∧
    read_records_list decompress_none
      ((close_writer compress_none (write_all compress_none DEFAULT_BUFFER_FLUSH_SIZE
        DEFAULT_BUFFER_FLUSH_RECORDS (writer_create COMPRESSION_NONE)
        [⟨[50, 48, 50, 52, 45, 48, 49, 45, 48, 49, 84, 48, 48, 58, 48, 48, 58, 48, 48],
          [73, 78, 70, 79], [104, 101, 108, 108, 111], false⟩,
         ⟨[50, 48, 50, 52, 45, 48, 49, 45, 48, 49, 84, 48, 48, 58, 48, 48, 58, 48, 49],
          [69, 82, 82, 79, 82],
          [108, 105, 110, 101, 49, 10, 108, 105, 110, 101, 50],
          false⟩])).fileBytes.drop 16) =
      ([⟨[50, 48, 50, 52, 45, 48, 49, 45, 48, 49, 84, 48, 48, 58, 48, 48, 58, 48, 48],
          [73, 78, 70, 79], [104, 101, 108, 108, 111]⟩,
        ⟨[50, 48, 50, 52, 45, 48, 49, 45, 48, 49, 84, 48, 48, 58, 48, 48, 58, 48, 49],
          [69, 82, 82, 79, 82],
          [108, 105, 110, 101, 49, 11, 108, 105, 110, 101, 50]⟩], none) :=
  C1_roundtrip_sentinel compress_none decompress_none (fun _ => rfl) (fun _ h => h)
    DEFAULT_BUFFER_FLUSH_SIZE DEFAULT_BUFFER_FLUSH_RECORDS COMPRESSION_NONE
    (Or.inl rfl) _ (by decide) (by decide) (by decide)

/-! ## Writer runs with explicit chunk groups (for the flush-threshold claim) -/

/-- Like `WriterInv` but with the flushed groups and buffered calls explicit. -/
def WriterHas (compress : List Nat → List Nat) (code : Nat)
    (groups : List (List WriteCall)) (bufCalls : List WriteCall)
    (st : WriterState) : Prop :=
  st.buffer = bufCalls.map (fun c => record_bytes c.timestamp c.level c.message) ∧
  st.buffer_current_records = bufCalls.length ∧
  st.buffer_current_size = (serialize_group bufCalls).length ∧
  st.fileBytes = header_bytes code ++ chunks_of compress groups

theorem write_record_has (compress : List Nat → List Nat) (code bfs bfr : Nat)
    (st : WriterState) (groups : List (List WriteCall)) (bufCalls : List WriteCall)
    (c : WriteCall) (h : WriterHas compress code groups bufCalls st) :
    (WriterHas compress code groups (bufCalls ++ [c])
        (write_record compress bfs bfr st c.timestamp c.level c.message c.time_trigger)) ∨
    (WriterHas compress code (groups ++ [bufCalls ++ [c]]) []
        (write_record compress bfs bfr st c.timestamp c.level c.message c.time_trigger)) := by
  obtain ⟨hbuf, hrec, hsize, hfile⟩ := h
  rw [write_record]
  split
  · right
    rw [flush_chunk_nonempty compress _ (by simp)]
    refine ⟨rfl, rfl, rfl, ?_⟩
    show st.fileBytes ++ chunk_bytes compress
        ((st.buffer ++ [record_bytes c.timestamp c.level c.message]).flatten)
        (st.buffer_current_records + 1) =
      header_bytes code ++ chunks_of compress (groups ++ [bufCalls ++ [c]])
    have hdata : (st.buffer ++ [record_bytes c.timestamp c.level c.message]).flatten =
        serialize_group (bufCalls ++ [c]) := by
      simp [hbuf, serialize_group]
    have hcount : st.buffer_current_records + 1 = (bufCalls ++ [c]).length := by
      simp [hrec]
    rw [hdata, hcount, hfile]
    simp [chunks_of, List.append_assoc]
  · left
    refine ⟨?_, ?_, ?_, hfile⟩
    · simp [hbuf]
    · simp [hrec]
    · simp [hsize, serialize_group_append, serialize_group]

theorem write_all_has (compress : List Nat → List Nat) (code bfs bfr : Nat)
    (calls : List WriteCall) :
    ∀ (st : WriterState) (groups : List (List WriteCall)) (bufCalls : List WriteCall),
    WriterHas compress code groups bufCalls st →
    ∃ ext bufCalls2,
      WriterHas compress code (groups ++ ext) bufCalls2
        (write_all compress bfs bfr st calls) ∧
      (groups ++ ext).flatten ++ bufCalls2 = groups.flatten ++ (bufCalls ++ calls) ∧
      (∀ g ∈ ext, g ≠ []) := by
  induction calls with
  | nil =>
    intro st groups bufCalls h
    exact ⟨[], bufCalls, by simpa [write_all] using h, by simp, by simp⟩
  | cons c t ih =>
    intro st groups bufCalls h
    rcases write_record_has compress code bfs bfr st groups bufCalls c h with h1 | h1
    · obtain ⟨ext, buf2, hh, hacc, hne⟩ := ih _ groups (bufCalls ++ [c]) h1
      refine ⟨ext, buf2, ?_, ?_, hne⟩
      · rw [write_all] at hh ⊢
        exact hh
      · rw [hacc]
        simp
    · obtain ⟨ext, buf2, hh, hacc, hne⟩ := ih _ (groups ++ [bufCalls ++ [c]]) [] h1
      refine ⟨[bufCalls ++ [c]] ++ ext, buf2, ?_, ?_, ?_⟩
      · rw [write_all] at hh ⊢
        rw [← List.append_assoc]
        exact hh
      · rw [← List.append_assoc, hacc]
        simp [List.flatten_append]
      · intro g hg
        rcases List.mem_append.mp hg with hg | hg
        · simp at hg
          simp [hg]
        · exact hne g hg

theorem close_writer_has (compress : List Nat → List Nat) (code : Nat)
    (st : WriterState) (groups : List (List WriteCall)) (bufCalls : List WriteCall)
    (h : WriterHas compress code groups bufCalls st) :
    (bufCalls = [] ∧ (close_writer compress st).fileBytes =
      header_bytes code ++ chunks_of compress groups) ∨
    (bufCalls ≠ [] ∧ (close_writer compress st).fileBytes =
      header_bytes code ++ chunks_of compress (groups ++ [bufCalls])) := by
  obtain ⟨hbuf, hrec, hsize, hfile⟩ := h
  by_cases hb : bufCalls = []
  · left
    subst hb
    rw [close_writer, flush_chunk, if_pos (by simp [hbuf])]
    exact ⟨rfl, hfile⟩
  · right
    rw [close_writer, flush_chunk_nonempty compress _ (by simp [hbuf, hb])]
    refine ⟨hb, ?_⟩
    show st.fileBytes ++ chunk_bytes compress st.buffer.flatten
        st.buffer_current_records = header_bytes code ++
        chunks_of compress (groups ++ [bufCalls])
    have hdata : st.buffer.flatten = serialize_group bufCalls := by
      simp [hbuf, serialize_group]
    rw [hdata, hrec, hfile]
    simp [chunks_of, List.append_assoc]

theorem write_all_append (compress : List Nat → List Nat) (bfs bfr : Nat)
    (st : WriterState) (l1 l2 : List WriteCall) :
    write_all compress bfs bfr st (l1 ++ l2) =
      write_all compress bfs bfr (write_all compress bfs bfr st l1) l2 := by
  simp [write_all, List.foldl_append]

theorem write_all_singleton (compress : List Nat → List Nat) (bfs bfr : Nat)
    (st : WriterState) (c : WriteCall) :
    write_all compress bfs bfr st [c] =
      write_record compress bfs bfr st c.timestamp c.level c.message c.time_trigger := by
  simp [write_all]

/-- `write_record` when a trigger holds: the appended buffer is flushed as one chunk
and the state clears. -/
theorem write_record_of_trigger (compress : List Nat → List Nat) (bfs bfr : Nat)
    (st : WriterState) (ts lvl msg : List Nat) (t : Bool)
    (h : st.buffer_current_size + (record_bytes ts lvl msg).length ≥ bfs ∨
      st.buffer_current_records + 1 ≥ bfr ∨ t = true) :
    write_record compress bfs bfr st ts lvl msg t =
      { buffer := [], buffer_current_size := 0, buffer_current_records := 0,
        fileBytes := st.fileBytes ++ chunk_bytes compress
          ((st.buffer ++ [record_bytes ts lvl msg]).flatten)
          (st.buffer_current_records + 1) } := by
  rw [write_record, if_pos ?_, flush_chunk_nonempty compress _ (by simp)]
  rcases h with h | h | h
  · exact Or.inl h
  · exact Or.inr (Or.inl h)
  · exact Or.inr (Or.inr ⟨by simp, h⟩)

/-- `write_record` when no trigger holds: the record stays buffered. -/
theorem write_record_no_trigger (compress : List Nat → List Nat) (bfs bfr : Nat)
    (st : WriterState) (ts lvl msg : List Nat) (t : Bool)
    (h1 : st.buffer_current_size + (record_bytes ts lvl msg).length < bfs)
    (h2 : st.buffer_current_records + 1 < bfr) (h3 : t = false) :
    write_record compress bfs bfr st ts lvl msg t =
      { buffer := st.buffer ++ [record_bytes ts lvl msg],
        buffer_current_size := st.buffer_current_size + (record_bytes ts lvl msg).length,
        buffer_current_records := st.buffer_current_records + 1,
        fileBytes := st.fileBytes } := by
  rw [write_record, if_neg ?_]
  rintro (h | h | ⟨_, hc⟩)
  · simp at h
    omega
  · simp at h
    omega
  · rw [h3] at hc
    exact absurd hc (by simp)

theorem write_record_has_trigger (compress : List Nat → List Nat) (code bfs bfr : Nat)
    (st : WriterState) (groups : List (List WriteCall)) (bufCalls : List WriteCall)
    (c : WriteCall) (h : WriterHas compress code groups bufCalls st)
    (htrig : st.buffer_current_size +
      (record_bytes c.timestamp c.level c.message).length ≥ bfs) :
    WriterHas compress code (groups ++ [bufCalls ++ [c]]) []
      (write_record compress bfs bfr st c.timestamp c.level c.message c.time_trigger) := by
  obtain ⟨hbuf, hrec, hsize, hfile⟩ := h
  rw [write_record_of_trigger compress bfs bfr st _ _ _ _ (Or.inl htrig)]
  refine ⟨rfl, rfl, rfl, ?_⟩
  show st.fileBytes ++ chunk_bytes compress
      ((st.buffer ++ [record_bytes c.timestamp c.level c.message]).flatten)
      (st.buffer_current_records + 1) =
    header_bytes code ++ chunks_of compress (groups ++ [bufCalls ++ [c]])
  have hdata : (st.buffer ++ [record_bytes c.timestamp c.level c.message]).flatten =
      serialize_group (bufCalls ++ [c]) := by
    simp [hbuf, serialize_group]
  have hcount : st.buffer_current_records + 1 = (bufCalls ++ [c]).length := by
    simp [hrec]
  rw [hdata, hcount, hfile]
  simp [chunks_of, List.append_assoc]

/-- A run that never meets a threshold and never sees the time trigger leaves
everything in the buffer. -/
theorem write_all_under_thresholds (compress : List Nat → List Nat)
    (code bfs bfr : Nat) (calls : List WriteCall)
    (hsz : ∀ k, k < calls.length →
      (serialize_group (calls.take (k + 1))).length < bfs ∧ k + 1 < bfr)
    (ht : ∀ c ∈ calls, c.time_trigger = false) :
    write_all compress bfs bfr (writer_create code) calls =
      { buffer := calls.map (fun c => record_bytes c.timestamp c.level c.message),
        buffer_current_size := (serialize_group calls).length,
        buffer_current_records := calls.length,
        fileBytes := header_bytes code } := by
  induction calls using List.reverseRecOn with
  | nil =>
    simp [write_all, writer_create, serialize_group]
  | append_singleton ys c ih =>
    have hys := ih
      (fun k hk => by
        have hh := hsz k (by simp; omega)
        rwa [List.take_append_of_le_length (by omega)] at hh)
      (fun x hx => ht x (by simp [hx]))
    rw [write_all_append, hys, write_all_singleton,
      write_record_no_trigger compress bfs bfr _ _ _ _ _ ?_ ?_ ?_]
    · have hserial : serialize_group (ys ++ [c]) =
          serialize_group ys ++ record_bytes c.timestamp c.level c.message := by
        simp [serialize_group_append, serialize_group]
      simp [hserial]
    · have hh := (hsz ys.length (by simp)).1
      rw [show (ys ++ [c]).take (ys.length + 1) = ys ++ [c] from by
        rw [List.take_append 1]; rfl] at hh
      have hserial : serialize_group (ys ++ [c]) =
          serialize_group ys ++ record_bytes c.timestamp c.level c.message := by
        simp [serialize_group_append, serialize_group]
      rw [hserial] at hh
      simp only [List.length_append] at hh
      show (serialize_group ys).length +
        (record_bytes c.timestamp c.level c.message).length < bfs
      exact hh
    · exact (hsz ys.length (by simp)).2
    · exact ht c (by simp)

/-! ## Claim C5: flush thresholds -/

/-- C5 amended.  Flush thresholds: (i) if the buffered bytes reach the size threshold
at some `write_record` call that is followed by at least one further call, the
resulting file contains more than one chunk (as stated, with the threshold reached at
the very last write, the flush at that write leaves close nothing to write and the
file holds exactly one chunk — see the counterexample); (ii) a non-empty sequence
staying under the size and count thresholds with no time trigger until close yields
exactly one chunk holding all records; (iii) `write_record` flushes immediately after
appending exactly when buffered size ≥ size threshold, or buffered count ≥ count
threshold, or the (necessarily non-empty) buffer's time trigger fired. -/
theorem C5_flush_thresholds (compress : List Nat → List Nat)
    (decompress : List Nat → Nat → List Nat)
    (hcd : ∀ data, decompress (compress data) data.length = data)
    (hclen : ∀ data, data.length < 4294967296 → (compress data).length < 4294967296)
    (bfs bfr code : Nat) (calls : List WriteCall)
    (hsize : (serialize_group calls).length < 4294967296)
    (hcnt : calls.length < 4294967296) :
    (∀ pre ck post, calls = pre ++ ck :: post → post ≠ [] →
      bfs ≤ (write_all compress bfs bfr (writer_create code) pre).buffer_current_size +
        (record_bytes ck.timestamp ck.level ck.message).length →
      1 < (read_chunks_list decompress ((close_writer compress (write_all compress bfs
        bfr (writer_create code) calls)).fileBytes.drop 16)).1.length) ∧
    (calls ≠ [] →
      (∀ k, k < calls.length →
        (serialize_group (calls.take (k + 1))).length < bfs ∧ k + 1 < bfr) →
      (∀ c ∈ calls, c.time_trigger = false) →
      read_chunks_list decompress ((close_writer compress (write_all compress bfs bfr
        (writer_create code) calls)).fileBytes.drop 16) =
        ([(serialize_group calls, calls.length)], none)) ∧
    (∀ (st : WriterState) (ts lvl msg : List Nat) (t : Bool),
      (write_record compress bfs bfr st ts lvl msg t).buffer = [] ↔
        (bfs ≤ st.buffer_current_size + (record_bytes ts lvl msg).length ∨
          bfr ≤ st.buffer_current_records + 1 ∨
          (st.buffer ++ [record_bytes ts lvl msg] ≠ [] ∧ t = true))) := by
  refine ⟨?_, ?_, ?_⟩
  · intro pre ck post hcalls hpost htrig
    have h0 : WriterHas compress code [] [] (writer_create code) :=
      ⟨rfl, rfl, rfl, by simp [writer_create, chunks_of]⟩
    obtain ⟨g1, b1, hh1, hacc1, hne1⟩ := write_all_has compress code bfs bfr pre _ [] [] h0
    have hh1' : WriterHas compress code g1 b1
        (write_all compress bfs bfr (writer_create code) pre) := by
      simpa using hh1
    have hacc1' : g1.flatten ++ b1 = pre := by simpa using hacc1
    have h2 := write_record_has_trigger compress code bfs bfr _ g1 b1 ck hh1' htrig
    obtain ⟨ext, b2, hh3, hacc3, hne3⟩ := write_all_has compress code bfs bfr post _ _ [] h2
    have hrun : write_all compress bfs bfr (writer_create code) calls =
        write_all compress bfs bfr
          (write_record compress bfs bfr
            (write_all compress bfs bfr (writer_create code) pre)
            ck.timestamp ck.level ck.message ck.time_trigger) post := by
      rw [hcalls, show pre ++ ck :: post = (pre ++ [ck]) ++ post by simp,
        write_all_append, write_all_append, write_all_singleton]
    have hflat2 : (g1 ++ [b1 ++ [ck]]).flatten = pre ++ [ck] := by
      simp [List.flatten_append, ← hacc1']
    rw [hrun]
    rcases close_writer_has compress code _ _ _ hh3 with ⟨hb2, hfin⟩ | ⟨hb2, hfin⟩
    · -- close found an empty buffer: the chunks are (g1 ++ [b1 ++ [ck]]) ++ ext
      subst hb2
      have hextflat : ext.flatten = post := by
        have := hacc3
        simp only [List.flatten_append, List.append_nil, List.nil_append] at this
        have h := List.append_cancel_left
          (by simpa [List.append_assoc] using this :
            (g1 ++ [b1 ++ [ck]]).flatten ++ ext.flatten =
            (g1 ++ [b1 ++ [ck]]).flatten ++ post)
        exact h
      have hextne : ext ≠ [] := by
        intro hx
        rw [hx] at hextflat
        exact hpost (by simpa using hextflat.symm)
      have hflatall : ((g1 ++ [b1 ++ [ck]]) ++ ext).flatten = calls := by
        rw [List.flatten_append, hflat2, hextflat, hcalls]
        simp
      have hfits : ∀ g ∈ (g1 ++ [b1 ++ [ck]]) ++ ext, ChunkFits compress g := by
        intro g hg
        have h1 : (serialize_group g).length ≤ (serialize_group calls).length := by
          rw [← hflatall]
          exact serialize_group_length_le _ g hg
        have h2 : g.length ≤ calls.length := by
          rw [← hflatall]
          exact group_length_le _ g hg
        exact ⟨hclen _ (lt_of_le_of_lt h1 hsize), lt_of_le_of_lt h1 hsize,
          lt_of_le_of_lt h2 hcnt⟩
      rw [hfin, List.drop_left' (header_bytes_length code),
        read_chunks_list_chunks_of decompress compress _ hfits hcd]
      have : ext.length ≠ 0 := fun h => hextne (List.length_eq_zero.mp h)
      simp [List.length_append]
      omega
    · -- close flushed the leftover buffer as one more chunk
      have hflatall : (((g1 ++ [b1 ++ [ck]]) ++ ext) ++ [b2]).flatten = calls := by
      -- flatten = flatten (groups) ++ b2 = (pre ++ [ck]) ++ post
        have := hacc3
        simp only [List.nil_append] at this
        rw [List.flatten_append, List.flatten_cons, List.flatten_nil, List.append_nil,
          this, hflat2, hcalls]
        simp
      have hfits : ∀ g ∈ ((g1 ++ [b1 ++ [ck]]) ++ ext) ++ [b2], ChunkFits compress g := by
        intro g hg
        have h1 : (serialize_group g).length ≤ (serialize_group calls).length := by
          rw [← hflatall]
          exact serialize_group_length_le _ g hg
        have h2 : g.length ≤ calls.length := by
          rw [← hflatall]
          exact group_length_le _ g hg
        exact ⟨hclen _ (lt_of_le_of_lt h1 hsize), lt_of_le_of_lt h1 hsize,
          lt_of_le_of_lt h2 hcnt⟩
      rw [hfin, List.drop_left' (header_bytes_length code),
        read_chunks_list_chunks_of decompress compress _ hfits hcd]
      simp [List.length_append]
      omega
  · intro hne hsz ht
    rw [write_all_under_thresholds compress code bfs bfr calls hsz ht,
      close_writer, flush_chunk_nonempty compress _ (by simpa using hne)]
    show read_chunks_list decompress ((header_bytes code ++ chunk_bytes compress
      (serialize_group calls) calls.length).drop 16) = _
    rw [List.drop_left' (header_bytes_length code),
      show chunk_bytes compress (serialize_group calls) calls.length =
        chunk_bytes compress (serialize_group calls) calls.length ++ [] by simp,
      read_chunks_list_chunk decompress compress _ _ _ (hclen _ hsize) hsize hcnt (hcd _)]
    rw [read_chunks_list]
  · intro st ts lvl msg t
    rw [write_record]
    split
    case isTrue h =>
      rw [flush_chunk_nonempty compress _ (by simp)]
      exact iff_of_true rfl h
    case isFalse h =>
      exact iff_of_false (by simp) h

theorem utf8Encode_all_ascii (s : List Nat) (h : ∀ x ∈ s, x < 0x80) :
    utf8Encode s = s := by
  induction s with
  | nil => rfl
  | cons c t ih =>
    rw [show utf8Encode (c :: t) = utf8EncodeChar c ++ utf8Encode t from by
      simp [utf8Encode]]
    rw [show utf8EncodeChar c = [c] from by simp [utf8EncodeChar, h c (by simp)],
      ih (fun x hx => h x (by simp [hx]))]
    rfl

/-- Encoding a run of one ASCII byte is the identity, shown without unfolding the
run. -/
theorem utf8Encode_replicate_ascii (n a : Nat) (h : a < 0x80) :
    utf8Encode (List.replicate n a) = List.replicate n a := by
  induction n with
  | zero => rfl
  | succ k ih =>
    rw [List.replicate_succ, show utf8Encode (a :: List.replicate k a) =
        utf8EncodeChar a ++ utf8Encode (List.replicate k a) from by simp [utf8Encode],
      ih, show utf8EncodeChar a = [a] from by simp [utf8EncodeChar, h]]
    rfl

/-- Counterexample to C5 as stated: a single `write_record` whose serialized record
alone reaches the default size threshold.  The buffered bytes reach the threshold
before close (the claim's antecedent), the write flushes immediately, close finds an
empty buffer, and the file holds exactly ONE chunk — not more than one. -/
theorem C5_counterexample :
    DEFAULT_BUFFER_FLUSH_SIZE ≤
      (record_bytes [84] [73] (List.replicate 4194304 97)).length ∧
    (read_chunks_list decompress_none ((close_writer compress_none (write_all
      compress_none DEFAULT_BUFFER_FLUSH_SIZE DEFAULT_BUFFER_FLUSH_RECORDS
      (writer_create COMPRESSION_NONE)
      [⟨[84], [73], List.replicate 4194304 97, false⟩])).fileBytes.drop 16)).1.length
      = 1 ∧
    ¬ (1 : Nat) > 1 := by
  have hproc : processed_message (List.replicate 4194304 97) =
      List.replicate 4194304 97 := by
    rw [processed_message, List.map_replicate]
    exact congrArg (List.replicate 4194304) (by norm_num)
  have henc : record_bytes [84] [73] (List.replicate 4194304 97) =
      [84] ++ [FIELD_DELIMITER] ++ [73] ++ [FIELD_DELIMITER] ++
        List.replicate 4194304 97 ++ [RECORD_DELIMITER] := by
    rw [record_bytes, record_body, hproc]
    simp only [utf8Encode_append]
    rw [utf8Encode_single_of_lt 84 (by norm_num), utf8Encode_single_of_lt 73 (by norm_num),
      utf8Encode_single_of_lt FIELD_DELIMITER (by norm_num [FIELD_DELIMITER]),
      utf8Encode_single_of_lt RECORD_DELIMITER (by norm_num [RECORD_DELIMITER]),
      utf8Encode_replicate_ascii _ _ (by norm_num)]
  have hlen : (record_bytes [84] [73] (List.replicate 4194304 97)).length = 4194309 := by
    rw [henc, List.length_append, List.length_append, List.length_append,
      List.length_append, List.length_append, List.length_replicate]
    rfl
  have hsz : DEFAULT_BUFFER_FLUSH_SIZE ≤
      (record_bytes [84] [73] (List.replicate 4194304 97)).length := by
    rw [hlen]
    norm_num [DEFAULT_BUFFER_FLUSH_SIZE]
  refine ⟨hsz, ?_, by omega⟩
  have hsz2 : DEFAULT_BUFFER_FLUSH_SIZE ≤
      (writer_create COMPRESSION_NONE).buffer_current_size +
      (record_bytes [84] [73] (List.replicate 4194304 97)).length := by
    rw [show (writer_create COMPRESSION_NONE).buffer_current_size = 0 from rfl, hlen]
    norm_num [DEFAULT_BUFFER_FLUSH_SIZE]
  rw [write_all_singleton,
    write_record_of_trigger compress_none DEFAULT_BUFFER_FLUSH_SIZE
      DEFAULT_BUFFER_FLUSH_RECORDS (writer_create COMPRESSION_NONE) _ _ _ _
      (Or.inl hsz2)]
  rw [close_writer, flush_chunk, if_pos rfl]
  have hdata : (((writer_create COMPRESSION_NONE).buffer ++
      [record_bytes [84] [73] (List.replicate 4194304 97)]).flatten) =
      record_bytes [84] [73] (List.replicate 4194304 97) := by
    rw [show (writer_create COMPRESSION_NONE).buffer = [] from rfl]
    rw [List.nil_append, List.flatten_cons, List.flatten_nil, List.append_nil]
  show (read_chunks_list decompress_none
    (((writer_create COMPRESSION_NONE).fileBytes ++
      chunk_bytes compress_none (((writer_create COMPRESSION_NONE).buffer ++
        [record_bytes [84] [73] (List.replicate 4194304 97)]).flatten)
      ((writer_create COMPRESSION_NONE).buffer_current_records + 1)).drop 16)).1.length
    = 1
  rw [hdata,
    show (writer_create COMPRESSION_NONE).fileBytes =
      header_bytes COMPRESSION_NONE from rfl,
    show (writer_create COMPRESSION_NONE).buffer_current_records + 1 = 1 from rfl,
    List.drop_left' (header_bytes_length COMPRESSION_NONE),
    show chunk_bytes compress_none (record_bytes [84] [73]
        (List.replicate 4194304 97)) 1 =
      chunk_bytes compress_none (record_bytes [84] [73]
        (List.replicate 4194304 97)) 1 ++ [] from (List.append_nil _).symm,
    read_chunks_list_chunk decompress_none compress_none _ _ _
      (by rw [show (compress_none (record_bytes [84] [73]
          (List.replicate 4194304 97))).length =
          (record_bytes [84] [73] (List.replicate 4194304 97)).length from rfl, hlen]
          norm_num)
      (by rw [hlen]; norm_num) (by norm_num) rfl]
  rw [read_chunks_list]
  rfl

/-- Witness for the amended C5: with size threshold 1, the first of two writes
flushes and the file ends with two chunks; with the default thresholds the same two
writes stay buffered and close writes exactly one chunk holding both records; and
the trigger equivalence at a concrete state with the time trigger fired. -/
theorem C5_flush_thresholds_witness :
    1 < (read_chunks_list decompress_none ((close_writer compress_none (write_all
      compress_none 1 1000 (writer_create COMPRESSION_NONE)
      [⟨[84], [73], [97], false⟩,
        ⟨[85], [74], [98], false⟩])).fileBytes.drop 16)).1.length ∧
    read_chunks_list decompress_none ((close_writer compress_none (write_all
      compress_none DEFAULT_BUFFER_FLUSH_SIZE DEFAULT_BUFFER_FLUSH_RECORDS
      (writer_create COMPRESSION_NONE)
      [⟨[84], [73], [97], false⟩, ⟨[85], [74], [98], false⟩])).fileBytes.drop 16) =
      ([(serialize_group [⟨[84], [73], [97], false⟩, ⟨[85], [74], [98], false⟩],
        2)], none) ∧
    ((write_record compress_none DEFAULT_BUFFER_FLUSH_SIZE
        DEFAULT_BUFFER_FLUSH_RECORDS (writer_create COMPRESSION_NONE)
        [84] [73] [97] true).buffer = [] ↔
      (DEFAULT_BUFFER_FLUSH_SIZE ≤
          (writer_create COMPRESSION_NONE).buffer_current_size +
          (record_bytes [84] [73] [97]).length ∨
        DEFAULT_BUFFER_FLUSH_RECORDS ≤
          (writer_create COMPRESSION_NONE).buffer_current_records + 1 ∨
        ((writer_create COMPRESSION_NONE).buffer ++
          [record_bytes [84] [73] [97]] ≠ [] ∧ (true : Bool) = true))) :=
  ⟨(C5_flush_thresholds compress_none decompress_none (fun _ => rfl) (fun _ h => h)
      1 1000 COMPRESSION_NONE _ (by decide) (by decide)).1
      [] ⟨[84], [73], [97], false⟩ [⟨[85], [74], [98], false⟩] rfl (by decide)
      (by decide),
    (C5_flush_thresholds compress_none decompress_none (fun _ => rfl) (fun _ h => h)
      DEFAULT_BUFFER_FLUSH_SIZE DEFAULT_BUFFER_FLUSH_RECORDS COMPRESSION_NONE _
      (by decide) (by decide)).2.1 (by decide) (by decide) (by decide),
    (C5_flush_thresholds compress_none decompress_none (fun _ => rfl) (fun _ h => h)
      DEFAULT_BUFFER_FLUSH_SIZE DEFAULT_BUFFER_FLUSH_RECORDS COMPRESSION_NONE []
      (by decide) (by decide)).2.2 (writer_create COMPRESSION_NONE) [84] [73] [97]
      true⟩

/-! ## Claim C2: the tail algorithm -/

/-- The metadata pass 1 of `tail` records for a chunk area laid out from absolute
position `pos`: one entry per chunk, in file order. -/
def meta_list (compress : List Nat → List Nat) (pos : Nat) :
    List (List WriteCall) → List ChunkInfo
  | [] => []
  | g :: gs =>
    { data_offset := pos + 12,
      compressed_size := (compress (serialize_group g)).length,
      uncompressed_size := (serialize_group g).length,
      count := g.length } ::
      meta_list compress (pos + 12 + (compress (serialize_group g)).length) gs

theorem chunk_bytes_length (compress : List Nat → List Nat) (data : List Nat)
    (count : Nat) :
    (chunk_bytes compress data count).length = 12 + (compress data).length := by
  simp [chunk_bytes, u32le]; omega

theorem drop_next_chunk (compress : List Nat → List Nat) (fileBytes : List Nat)
    (g : List WriteCall) (gs : List (List WriteCall)) (pos : Nat)
    (h : fileBytes.drop pos = chunks_of compress (g :: gs)) :
    fileBytes.drop (pos + 12 + (compress (serialize_group g)).length) =
      chunks_of compress gs := by
  have hchunk : fileBytes.drop pos =
      chunk_bytes compress (serialize_group g) g.length ++ chunks_of compress gs := by
    rw [h]
    simp [chunks_of]
  rw [show pos + 12 + (compress (serialize_group g)).length =
      pos + (12 + (compress (serialize_group g)).length) from by omega,
    ← List.drop_drop, hchunk,
    List.drop_left' (chunk_bytes_length compress (serialize_group g) g.length)]

/-- The 12 header bytes plus payload-and-rest decomposition of a chunk area. -/
theorem chunk_area_cons (compress : List Nat → List Nat) (g : List WriteCall)
    (gs : List (List WriteCall)) :
    chunks_of compress (g :: gs) =
      ((compress (serialize_group g)).length % 256) ::
      ((compress (serialize_group g)).length / 256 % 256) ::
      ((compress (serialize_group g)).length / 65536 % 256) ::
      ((compress (serialize_group g)).length / 16777216 % 256) ::
      ((serialize_group g).length % 256) :: ((serialize_group g).length / 256 % 256) ::
      ((serialize_group g).length / 65536 % 256) ::
      ((serialize_group g).length / 16777216 % 256) ::
      (g.length % 256) :: (g.length / 256 % 256) ::
      (g.length / 65536 % 256) :: (g.length / 16777216 % 256) ::
      (compress (serialize_group g) ++ chunks_of compress gs) := by
  simp [chunks_of, chunk_bytes, u32le]

/-- Pass 1 scans a well-sized chunk area into exactly its metadata list. -/
theorem tail_scan_chunks_of (compress : List Nat → List Nat) (fileBytes : List Nat)
    (groups : List (List WriteCall)) :
    ∀ (pos : Nat), fileBytes.drop pos = chunks_of compress groups →
    (∀ g ∈ groups, ChunkFits compress g) →
    tail_scan fileBytes pos = meta_list compress pos groups := by
  induction groups with
  | nil =>
    intro pos hdrop _
    rw [tail_scan, dif_pos (by rw [hdrop, show chunks_of compress [] = [] from rfl]; simp)]
    rfl
  | cons g gs ih =>
    intro pos hdrop hfits
    obtain ⟨hf1, hf2, hf3⟩ := hfits g (by simp)
    have htake : ((fileBytes.drop pos).take 12) =
        [(compress (serialize_group g)).length % 256,
          (compress (serialize_group g)).length / 256 % 256,
          (compress (serialize_group g)).length / 65536 % 256,
          (compress (serialize_group g)).length / 16777216 % 256,
          (serialize_group g).length % 256, (serialize_group g).length / 256 % 256,
          (serialize_group g).length / 65536 % 256,
          (serialize_group g).length / 16777216 % 256,
          g.length % 256, g.length / 256 % 256,
          g.length / 65536 % 256, g.length / 16777216 % 256] := by
      rw [hdrop, chunk_area_cons]
      rfl
    rw [tail_scan, dif_neg (by rw [htake]; simp)]
    simp only [htake, List.getD_cons_zero, List.getD_cons_succ]
    rw [readU32_u32le _ hf1, readU32_u32le _ hf2, readU32_u32le _ hf3, meta_list]
    rw [ih _ (drop_next_chunk compress fileBytes g gs pos hdrop)
      (fun x hx => hfits x (by simp [hx]))]

/-- Total record count of a span of the chunk map, as the `Int` arithmetic of
pass 2 sees it. -/
def sum_counts (l : List ChunkInfo) : Int := (l.map fun c => (c.count : Int)).sum

theorem meta_list_length (compress : List Nat → List Nat) (groups : List (List WriteCall)) :
    ∀ pos, (meta_list compress pos groups).length = groups.length := by
  induction groups with
  | nil => intro pos; rfl
  | cons g gs ih => intro pos; rw [meta_list]; simp [ih]

/-- Pass 2's walk either exhausts the map or stops inside it having selected
a nonempty newest-first prefix of the walked (reversed) list whose record
total covers the demand. -/
theorem select_go_spec (l : List ChunkInfo) : ∀ (needed : Int) (acc : List ChunkInfo),
    select_go needed acc l = l.reverse ++ acc ∨
    ∃ l1 l2, l = l1 ++ l2 ∧ l1 ≠ [] ∧
      select_go needed acc l = l1.reverse ++ acc ∧ needed ≤ sum_counts l1 := by
  induction l with
  | nil => intro needed acc; left; simp [select_go]
  | cons c rest ih =>
    intro needed acc
    simp only [select_go]
    by_cases h : needed - (c.count : Int) ≤ 0
    · rw [if_pos h]
      right
      refine ⟨[c], rest, rfl, by simp, by simp, ?_⟩
      simp only [sum_counts, List.map_cons, List.map_nil, List.sum_cons, List.sum_nil]
      omega
    · rw [if_neg h]
      rcases ih (needed - c.count) (c :: acc) with hall | ⟨l1, l2, heq, hne, hres, hsum⟩
      · left; rw [hall]; simp
      · right
        refine ⟨c :: l1, l2, by rw [heq]; rfl, by simp, by rw [hres]; simp, ?_⟩
        simp only [sum_counts, List.map_cons, List.sum_cons] at hsum ⊢
        omega

/-- `chunks_to_read` returns the whole chunk map, or a proper tail of it whose
record total is at least `n`. -/
theorem chunks_to_read_spec (n : Nat) (cmap : List ChunkInfo) :
    chunks_to_read n cmap = cmap ∨
    ∃ k, k < cmap.length ∧ chunks_to_read n cmap = cmap.drop k ∧
      (n : Int) ≤ sum_counts (cmap.drop k) := by
  rcases select_go_spec cmap.reverse (n : Int) [] with hall | ⟨l1, l2, heq, hne, hres, hsum⟩
  · left
    rw [chunks_to_read, hall]
    simp
  · right
    have hcm : cmap = l2.reverse ++ l1.reverse := by
      have := congrArg List.reverse heq
      simpa using this
    refine ⟨l2.length, ?_, ?_, ?_⟩
    · have := congrArg List.length heq
      simp at this
      have h1 : 0 < l1.length := List.length_pos.mpr hne
      omega
    · rw [chunks_to_read, hres, List.append_nil, hcm,
        List.drop_left' (by simp)]
    · have hdrop : cmap.drop l2.length = l1.reverse := by
        rw [hcm, List.drop_left' (by simp)]
      rw [hdrop]
      have hrev : sum_counts l1.reverse = sum_counts l1 := by
        simp only [sum_counts, List.map_reverse, List.sum_reverse]
      rw [hrev]
      exact hsum

/-- Record totals in the chunk map equal record counts in the groups behind it. -/
theorem sum_counts_meta (compress : List Nat → List Nat) (groups : List (List WriteCall)) :
    ∀ pos, sum_counts (meta_list compress pos groups) = (groups.flatten.length : Int) := by
  induction groups with
  | nil => intro pos; simp [meta_list, sum_counts]
  | cons g gs ih =>
    intro pos
    rw [meta_list]
    simp only [sum_counts, List.map_cons, List.sum_cons] at ih ⊢
    rw [ih]
    simp

/-- Dropping whole chunks from the map matches dropping the same groups, at the
position just past the dropped chunks. -/
theorem meta_list_suffix (compress : List Nat → List Nat) (fileBytes : List Nat)
    (groups : List (List WriteCall)) :
    ∀ (pos k : Nat), fileBytes.drop pos = chunks_of compress groups →
    ∃ pos2, (meta_list compress pos groups).drop k = meta_list compress pos2 (groups.drop k) ∧
      fileBytes.drop pos2 = chunks_of compress (groups.drop k) := by
  induction groups with
  | nil =>
    intro pos k hdrop
    exact ⟨pos, by simp [meta_list], by simpa using hdrop⟩
  | cons g gs ih =>
    intro pos k hdrop
    cases k with
    | zero => exact ⟨pos, by simp, hdrop⟩
    | succ k =>
      obtain ⟨pos2, h1, h2⟩ := ih (pos + 12 + (compress (serialize_group g)).length) k
        (drop_next_chunk compress fileBytes g gs pos hdrop)
      exact ⟨pos2, by rw [meta_list, List.drop_succ_cons, h1]; rfl, h2⟩

/-- A flattened tail of the groups is the flat record list with the records of the
leading groups dropped. -/
theorem flatten_drop {α : Type} (groups : List (List α)) :
    ∀ k, (groups.drop k).flatten =
      groups.flatten.drop (((groups.take k).map List.length).sum) := by
  induction groups with
  | nil => intro k; simp
  | cons g gs ih =>
    intro k
    cases k with
    | zero => simp
    | succ k =>
      simp only [List.drop_succ_cons, List.take_succ_cons, List.map_cons, List.sum_cons,
        List.flatten_cons]
      rw [ih k, List.drop_append]

/-- Pass 3 over the chunk map of a chunk area parses every record of every group, in
order. -/
theorem pass3_parse (compress : List Nat → List Nat) (decompress : List Nat → Nat → List Nat)
    (hcd : ∀ data, decompress (compress data) data.length = data)
    (fileBytes : List Nat) (groups : List (List WriteCall)) :
    ∀ pos, fileBytes.drop pos = chunks_of compress groups →
    (∀ g ∈ groups, ∀ c ∈ g, WfCall c) →
    ((meta_list compress pos groups).map fun ci =>
        parse_records_tail
          (decompress ((fileBytes.drop ci.data_offset).take ci.compressed_size)
            ci.uncompressed_size)).flatten =
      (groups.flatten).map parsed_call := by
  induction groups with
  | nil => intro pos _ _; rfl
  | cons g gs ih =>
    intro pos hdrop hwf
    have h12 : fileBytes.drop (pos + 12) =
        compress (serialize_group g) ++ chunks_of compress gs := by
      rw [← List.drop_drop, hdrop, chunk_area_cons]
      rfl
    rw [meta_list]
    simp only [List.map_cons, List.flatten_cons]
    rw [h12, List.take_left, hcd (serialize_group g),
      parse_records_tail_group g (hwf g (by simp)),
      ih _ (drop_next_chunk compress fileBytes g gs pos hdrop)
        (fun x hx => hwf x (by simp [hx]))]
    simp

/-- C2.  Tail correctness: for every well-formed file — a valid header followed by the
records split arbitrarily across chunks, each chunk well-sized and each record
well-formed — and for every `n`, `tail(n)` returns exactly the last `n` parsed records
in original (oldest-to-newest) order, all of them when `n` exceeds the total: the
result is the full record list with all but the last `n` dropped (everything, for
`n = 0`). -/
theorem C2_tail_correct (compress : List Nat → List Nat)
    (decompress : List Nat → Nat → List Nat)
    (hcd : ∀ data, decompress (compress data) data.length = data)
    (code : Nat) (groups : List (List WriteCall))
    (hfits : ∀ g ∈ groups, ChunkFits compress g)
    (hwf : ∀ g ∈ groups, ∀ c ∈ g, WfCall c)
    (n : Nat) :
    (tail decompress (header_bytes code ++ chunks_of compress groups) n).1 =
      ((groups.flatten).map parsed_call).drop (groups.flatten.length - n) := by
  have hdrop16 : (header_bytes code ++ chunks_of compress groups).drop 16 =
      chunks_of compress groups := List.drop_left' (header_bytes_length code)
  have hscan := tail_scan_chunks_of compress
    (header_bytes code ++ chunks_of compress groups) groups 16 hdrop16 hfits
  simp only [tail]
  rw [hscan]
  by_cases hn : 0 < n
  · rw [if_pos hn]
    rcases chunks_to_read_spec n (meta_list compress 16 groups) with hall | ⟨k, hk, hsel, hsum⟩
    · rw [hall, pass3_parse compress decompress hcd _ groups 16 hdrop16 hwf,
        List.length_map]
    · rw [meta_list_length] at hk
      obtain ⟨pos2, hmeq, hdrop2⟩ :=
        meta_list_suffix compress (header_bytes code ++ chunks_of compress groups)
          groups 16 k hdrop16
      rw [hsel, hmeq, pass3_parse compress decompress hcd _ (groups.drop k) pos2 hdrop2
        (fun g hg c hc => hwf g (List.mem_of_mem_drop hg) c hc)]
      have hnle : n ≤ (groups.drop k).flatten.length := by
        rw [hmeq, sum_counts_meta] at hsum
        exact_mod_cast hsum
      rw [flatten_drop groups k] at hnle ⊢
      rw [List.length_drop] at hnle
      rw [List.map_drop, List.drop_drop, List.length_drop, List.length_map]
      congr 1
      omega
  · rw [if_neg hn]
    have hz : n = 0 := by omega
    subst hz
    rw [Nat.sub_zero,
      show groups.flatten.length = ((groups.flatten).map parsed_call).length from
        (List.length_map _ _).symm,
      List.drop_length]

/-- The [2,2,1] chunk layout of the spec's scenario. -/
def C2G : List (List WriteCall) :=
  [[⟨[84], [73], [97], false⟩, ⟨[84], [73], [98], false⟩],
   [⟨[84], [73], [99], false⟩, ⟨[84], [73], [100], false⟩],
   [⟨[84], [73], [101], false⟩]]

theorem C2_tail_correct_witness :
    ((tail decompress_none (header_bytes 48 ++ chunks_of compress_none C2G) 1).1 =
      ((C2G.flatten).map parsed_call).drop (C2G.flatten.length - 1)) ∧
    ((C2G.flatten).map parsed_call).drop (C2G.flatten.length - 1) =
      [([84], [73], [101])] :=
  ⟨C2_tail_correct compress_none decompress_none (fun _ => rfl) 48 C2G
    (by decide) (by decide) 1, by decide⟩
